import Mathlib

/-!
Verification of the document-assembly pipeline of `make_book.py`
(gutenberg_org_to_epub).

The Python source manipulates HTML both as parse trees (via
BeautifulSoup with the `html.parser` backend) and as raw strings
(`str.find`, `str.rfind`, slicing).  The embedding therefore models
HTML documents as character lists (`Str`), with an executable
tokenizer / tree-builder (`parse`) and a serializer (`serializeNodes`)
that mirror `BeautifulSoup(x, "html.parser")` and `str(soup)` on the
element/text fragment of HTML (doctype, comment and CDATA nodes are
outside the modelled fragment; tag and attribute names are lowercased
exactly as `html.parser` does).  Each function of the source is then a
`Str`-level definition that parses, walks and re-serializes exactly
where the source does.
-/

/-- Python strings are sequences of code points; we model them as `List Char`. -/
abbrev Str := List Char

namespace MakeBook

/-- Whitespace, as Python's `str.split()` / `str.strip()` and the HTML
tokenizer treat it (space, tab, LF, CR, VT, FF). -/
def isWs (c : Char) : Bool :=
  c == ' ' || c == Char.ofNat 9 || c == Char.ofNat 10 || c == Char.ofNat 13
    || c == Char.ofNat 11 || c == Char.ofNat 12

/-- ASCII uppercase test. -/
def isUpperA (c : Char) : Bool :=
  decide (65 ≤ c.toNat) && decide (c.toNat ≤ 90)

/-- ASCII letter test (the tag-name alphabet of `html.parser`). -/
def isAlphaA (c : Char) : Bool :=
  isUpperA c || (decide (97 ≤ c.toNat) && decide (c.toNat ≤ 122))

/-- ASCII digit test. -/
def isDigitA (c : Char) : Bool :=
  decide (48 ≤ c.toNat) && decide (c.toNat ≤ 57)

/-- ASCII lowercasing, as `html.parser` applies to tag and attribute
names. -/
def toLowerA (c : Char) : Char :=
  if isUpperA c then Char.ofNat (c.toNat + 32) else c

/-- An HTML node: a text run or an element with its tag name, attribute
list (name/value pairs, document order) and children. -/
inductive Node where
  | text : Str → Node
  | elem : Str → List (Str × Str) → List Node → Node

/-- The HTML void elements: `html.parser` closes them immediately and
`str(soup)` prints them self-closed. -/
def voidTags : List Str :=
  [("area").data, ("base").data, ("br").data, ("col").data, ("embed").data,
   ("hr").data, ("img").data, ("input").data, ("link").data, ("meta").data,
   ("param").data, ("source").data, ("track").data, ("wbr").data]

def isVoidTag (t : Str) : Bool := voidTags.contains t

/-- Text serialization escape used by `str(soup)`. -/
def escTextChar (c : Char) : Str :=
  if c == '&' then ("&amp;").data
  else if c == '<' then ("&lt;").data
  else if c == '>' then ("&gt;").data
  else [c]

def escapeText : Str → Str
  | [] => []
  | c :: cs => escTextChar c ++ escapeText cs

/-- Attribute-value serialization escape used by `str(soup)`. -/
def escAttrChar (c : Char) : Str :=
  if c == '&' then ("&amp;").data
  else if c == '"' then ("&quot;").data
  else [c]

def escapeAttr : Str → Str
  | [] => []
  | c :: cs => escAttrChar c ++ escapeAttr cs

/-- Is the first list a prefix of the second?  (Python `startswith`.) -/
def isPfx : Str → Str → Bool
  | [], _ => true
  | _ :: _, [] => false
  | a :: as, b :: bs => (a == b) && isPfx as bs

/-- Is the first list a suffix of the second?  (Python `endswith`.) -/
def isSfx (a b : Str) : Bool := isPfx a.reverse b.reverse

/-- The entity (if any) starting right after a `&`: the decoded
character and the length of the entity body.  Together with
`unescapeLoop` this models the entity decoding `html.parser` applies
to text and attribute values (restricted to the entities our
serializer can emit plus the standard four). -/
def entityHead (rest : Str) : Option (Char × Nat) :=
  if isPfx (("amp;").data) rest then some ('&', 4)
  else if isPfx (("lt;").data) rest then some ('<', 3)
  else if isPfx (("gt;").data) rest then some ('>', 3)
  else if isPfx (("quot;").data) rest then some ('"', 5)
  else none

def unescapeLoop : Nat → Str → Str
  | 0, _ => []
  | _ + 1, [] => []
  | fuel + 1, c :: rest =>
    if c == '&' then
      match entityHead rest with
      | some p => p.1 :: unescapeLoop fuel (rest.drop p.2)
      | none => '&' :: unescapeLoop fuel rest
    else c :: unescapeLoop fuel rest

def unescapeHtml (s : Str) : Str := unescapeLoop s.length s

/-- Serialize an attribute list the way `str(soup)` prints it:
a space, the name, `="`, the escaped value, `"`. -/
def serializeAttrs : List (Str × Str) → Str
  | [] => []
  | (n, v) :: rest => ' ' :: (n ++ '=' :: '"' :: (escapeAttr v ++ '"' :: serializeAttrs rest))

mutual

/-- `str(tag)` / `str(navigable_string)` for one node. -/
def serializeNode : Node → Str
  | .text s => escapeText s
  | .elem t attrs children =>
    if isVoidTag t then
      '<' :: (t ++ serializeAttrs attrs ++ ('/' :: '>' :: []))
    else
      '<' :: (t ++ serializeAttrs attrs ++ '>' :: (serializeNodes children
        ++ '<' :: '/' :: (t ++ ('>' :: []))))

/-- `str(soup)` for a node sequence. -/
def serializeNodes : List Node → Str
  | [] => []
  | n :: ns => serializeNode n ++ serializeNodes ns

end

/-- Does the input start a markup tag (`<` followed by a letter for an
open tag, `</` for a close tag)?  Anything else is text. -/
def tagStartAt : Str → Bool
  | c :: d :: _ => c == '<' && (isAlphaA d || d == '/')
  | _ => false

/-- Consume the raw character run up to the next tag start. -/
def takeRawText : Str → Str × Str
  | [] => ([], [])
  | c :: rest =>
    if tagStartAt (c :: rest) then ([], c :: rest)
    else
      let p := takeRawText rest
      (c :: p.1, p.2)

/-- Characters allowed while scanning a tag name. -/
def isNameBodyChar (c : Char) : Bool := isAlphaA c || isDigitA c

/-- Scan a tag name (lowercased, like `html.parser`). -/
def takeName (cs : Str) : Str × Str :=
  ((cs.takeWhile isNameBodyChar).map toLowerA, cs.dropWhile isNameBodyChar)

/-- Characters allowed while scanning an attribute name. -/
def isAttrNameChar (c : Char) : Bool :=
  !(isWs c || c == '=' || c == '>' || c == '/')

def dropWs (cs : Str) : Str := cs.dropWhile isWs

def quoteCh : Char := Char.ofNat 39

/-- Scan the attribute area of an open tag, up to and including the
closing `>` (or `/>`); returns the attributes, whether the tag was
self-closed, and the remaining input. -/
def parseAttrs : Nat → Str → List (Str × Str) × Bool × Str
  | 0, cs => ([], false, cs)
  | fuel + 1, cs0 =>
    match dropWs cs0 with
    | [] => ([], false, [])
    | c :: rest =>
      if c == '>' then ([], false, rest)
      else if c == '/' then
        match rest with
        | [] => parseAttrs fuel []
        | r1 :: rest2 =>
          if r1 == '>' then ([], true, rest2) else parseAttrs fuel rest
      else
        let nRaw := (c :: rest).takeWhile isAttrNameChar
        let cs1 := (c :: rest).dropWhile isAttrNameChar
        if nRaw = [] then parseAttrs fuel rest
        else
          let n := nRaw.map toLowerA
          match dropWs cs1 with
          | [] =>
            let p := parseAttrs fuel []
            ((n, []) :: p.1, p.2)
          | c2 :: cs3 =>
            if c2 == '=' then
              match dropWs cs3 with
              | [] => ([(n, [])], false, [])
              | d :: cs5 =>
                if d == '"' then
                  let v := cs5.takeWhile (fun e => e != '"')
                  let rest5 := (cs5.dropWhile (fun e => e != '"')).drop 1
                  let p := parseAttrs fuel rest5
                  ((n, unescapeHtml v) :: p.1, p.2)
                else if d == quoteCh then
                  let v := cs5.takeWhile (fun e => e != quoteCh)
                  let rest5 := (cs5.dropWhile (fun e => e != quoteCh)).drop 1
                  let p := parseAttrs fuel rest5
                  ((n, unescapeHtml v) :: p.1, p.2)
                else
                  let v := (d :: cs5).takeWhile (fun e => !(isWs e || e == '>'))
                  let rest5 := (d :: cs5).dropWhile (fun e => !(isWs e || e == '>'))
                  let p := parseAttrs fuel rest5
                  ((n, unescapeHtml v) :: p.1, p.2)
            else
              let p := parseAttrs fuel (c2 :: cs3)
              ((n, []) :: p.1, p.2)

/-- A markup token, as `html.parser` hands them to BeautifulSoup's
tree builder. -/
inductive Tok where
  | text : Str → Tok
  | opened : Str → List (Str × Str) → Bool → Tok
  | close : Str → Tok

/-- The tokenizer: one token per step (fuel bounds the step count; one
more step than characters always suffices since every step consumes at
least one character). -/
def tokenize : Nat → Str → List Tok
  | 0, _ => []
  | fuel + 1, cs =>
    match cs with
    | [] => []
    | c :: rest =>
      if c == '<' then
        match rest with
        | d :: _ =>
          if d == '/' then
            let tn := takeName (rest.drop 1)
            let rem := (tn.2.dropWhile (fun e => e != '>')).drop 1
            .close tn.1 :: tokenize fuel rem
          else if isAlphaA d then
            let tn := takeName rest
            let pa := parseAttrs (tn.2.length + 1) tn.2
            .opened tn.1 pa.1 pa.2.1 :: tokenize fuel pa.2.2
          else
            let pt := takeRawText (c :: rest)
            .text (unescapeHtml pt.1) :: tokenize fuel pt.2
        | [] => [.text (('<') :: [])]
      else
        let pt := takeRawText (c :: rest)
        .text (unescapeHtml pt.1) :: tokenize fuel pt.2

/-- An open element on the tree builder's stack. -/
structure Frame where
  tag : Str
  attrs : List (Str × Str)
  children : List Node

/-- Append a completed node to a child list, merging adjacent text
runs (observationally equivalent to bs4's separate NavigableStrings). -/
def appendChildMerge (ns : List Node) (n : Node) : List Node :=
  match n, ns.getLast? with
  | .text b, some (.text a) => ns.dropLast ++ [Node.text (a ++ b)]
  | _, _ => ns ++ [n]

/-- Hand a completed node to the innermost open element (or to the
finished top-level sequence when the stack is empty). -/
def pushNode (st : List Frame) (done : List Node) (n : Node) : List Frame × List Node :=
  match st with
  | [] => ([], appendChildMerge done n)
  | f :: rest => ({ f with children := appendChildMerge f.children n } :: rest, done)

def hasOpenTag (st : List Frame) (t : Str) : Bool := st.any (fun f => f.tag = t)

/-- Close tag handling (bs4's pop-to-tag): close every open element up
to and including the nearest one with the given tag, each popped
element becoming the last child of its parent. -/
def closeLoop (t : Str) : List Frame → List Node → Option Node → List Frame × List Node
  | [], done, carry =>
    ([], match carry with | some c => appendChildMerge done c | none => done)
  | f :: rest, done, carry =>
    let ch := match carry with | some c => appendChildMerge f.children c | none => f.children
    if f.tag = t then pushNode rest done (.elem f.tag f.attrs ch)
    else closeLoop t rest done (some (.elem f.tag f.attrs ch))

/-- End of input: implicitly close every still-open element. -/
def finishFrames : List Frame → List Node → Option Node → List Node
  | [], done, carry =>
    match carry with | some c => appendChildMerge done c | none => done
  | f :: rest, done, carry =>
    let ch := match carry with | some c => appendChildMerge f.children c | none => f.children
    finishFrames rest done (some (.elem f.tag f.attrs ch))

/-- BeautifulSoup's tree builder over the token stream. -/
def buildToks : List Tok → List Frame → List Node → List Node
  | [], st, done => finishFrames st done none
  | .text s :: toks, st, done =>
    let p := pushNode st done (.text s)
    buildToks toks p.1 p.2
  | .opened t attrs sc :: toks, st, done =>
    if isVoidTag t || sc then
      let p := pushNode st done (.elem t attrs [])
      buildToks toks p.1 p.2
    else buildToks toks ({ tag := t, attrs := attrs, children := [] } :: st) done
  | .close t :: toks, st, done =>
    if hasOpenTag st t then
      let p := closeLoop t st done none
      buildToks toks p.1 p.2
    else buildToks toks st done

/-- `BeautifulSoup(s, "html.parser")`: the document as a node sequence. -/
def parse (s : Str) : List Node := buildToks (tokenize (s.length + 1) s) [] []

/-! ### Document-order search, attribute access, Python dicts -/

/-- `tag.get(name)`: first binding of the attribute (duplicate
attributes after the first are ignored by `html.parser`). -/
def getAttr : List (Str × Str) → Str → Option Str
  | [], _ => none
  | (k, v) :: rest, a => if k = a then some v else getAttr rest a

/-- Python `s.split()` on an attribute value: whitespace-separated
nonempty tokens (bs4 stores `class` and `rel` this way). -/
def splitWs (s : Str) : List Str :=
  (s.splitOnP (fun c => isWs c)).filter (fun t => t ≠ [])

/-- `tag.get('class', [])` as a token list. -/
def getClasses (attrs : List (Str × Str)) : List Str :=
  splitWs ((getAttr attrs (("class").data)).getD [])

/-- bs4 element match used by `find_all` / `find`: optional tag name,
optional `class_` token, optional required attribute, optional `rel`
token (each `none` means unconstrained). -/
structure Sel where
  tag : Option Str := none
  cls : Option Str := none
  hasAttr : Option Str := none
  relTok : Option Str := none

def selMatch (s : Sel) (t : Str) (attrs : List (Str × Str)) : Bool :=
  (match s.tag with | none => true | some tg => t = tg)
  && (match s.cls with | none => true | some c => (getClasses attrs).contains c)
  && (match s.hasAttr with | none => true | some a => (getAttr attrs a).isSome)
  && (match s.relTok with
      | none => true
      | some r => (splitWs ((getAttr attrs (("rel").data)).getD [])).contains r)

mutual

/-- `find_all`: all matching elements in document order (preorder). -/
def findAllNode : Sel → Node → List Node
  | _, .text _ => []
  | s, .elem t attrs children =>
    (if selMatch s t attrs then [Node.elem t attrs children] else [])
      ++ findAllNodes s children

def findAllNodes : Sel → List Node → List Node
  | _, [] => []
  | s, n :: ns => findAllNode s n ++ findAllNodes s ns

end

/-- `find`: the first match in document order. -/
def findFirst (s : Sel) (ns : List Node) : Option Node :=
  (findAllNodes s ns).head?

mutual

/-- `decompose()` applied to every matching element: remove each
matching element (and with it its subtree) from the tree. -/
def removeAllNode : Sel → Node → List Node
  | _, .text s => [.text s]
  | s, .elem t attrs children =>
    if selMatch s t attrs then [] else [.elem t attrs (removeAllNodes s children)]

def removeAllNodes : Sel → List Node → List Node
  | _, [] => []
  | s, n :: ns => removeAllNode s n ++ removeAllNodes s ns

end

mutual

/-- The text pieces (descendant strings) of a node, document order. -/
def textsNode : Node → List Str
  | .text s => [s]
  | .elem _ _ children => textsNodes children

def textsNodes : List Node → List Str
  | [] => []
  | n :: ns => textsNode n ++ textsNodes ns

end

/-- Python `str.strip()`. -/
def pyStrip (s : Str) : Str :=
  ((s.dropWhile isWs).reverse.dropWhile isWs).reverse

/-- `get_text(strip=True)`: the stripped descendant strings, with
whitespace-only pieces dropped, joined without separator. -/
def getTextStrip (n : Node) : Str :=
  (((textsNode n).map pyStrip).filter (fun t => t ≠ [])).flatten

/-- Python `dict` update `d[k] = v`: replace the value at an existing
key in place, else append (insertion order preserved). -/
def dictInsert : List (Str × Str) → Str → Str → List (Str × Str)
  | [], k, v => [(k, v)]
  | (k0, v0) :: rest, k, v =>
    if k0 = k then (k0, v) :: rest else (k0, v0) :: dictInsert rest k v

/-- Python `dict` lookup (keys are unique in a dict built by
`dictInsert`). -/
def dictLookup : List (Str × Str) → Str → Option Str
  | [], _ => none
  | (k0, v0) :: rest, k => if k0 = k then some v0 else dictLookup rest k

/-- Substring search: Python `str.find`, as a code-point index. -/
def findSubstrIdx (hay pat : Str) : Option Nat :=
  (List.range (hay.length + 1)).find? (fun i => isPfx pat (hay.drop i))

/-- Substring search from the right: Python `str.rfind`. -/
def rfindSubstrIdx (hay pat : Str) : Option Nat :=
  ((List.range (hay.length + 1)).filter (fun i => isPfx pat (hay.drop i))).getLast?

/-! ### The functions of `make_book.py`

`fetch_webpage` is an external collaborator (network I/O); every
function below that fetches a page in the source instead receives that
page's HTML as an explicit argument. -/

def sTitle : Str := ("title").data
def sSubtitle : Str := ("subtitle").data
def sAuthor : Str := ("author").data
def sChapter : Str := ("chapter").data
def sClass : Str := ("class").data
def sHref : Str := ("href").data
def sSrc : Str := ("src").data
def sName : Str := ("name").data
def sProperty : Str := ("property").data
def sContent : Str := ("content").data
def sStylesheet : Str := ("stylesheet").data
def sUl : Str := ("ul").data
def sA : Str := ("a").data
def sDiv : Str := ("div").data
def sImg : Str := ("img").data
def sLink : Str := ("link").data
def sScript : Str := ("script").data
def sMeta : Str := ("meta").data
def sUnknown : Str := ("Unknown").data
def sAnzeigeChap : Str := ("anzeige-chap").data
def sBottomnaviGb : Str := ("bottomnavi-gb").data
def sAnzeigePrint : Str := ("anzeige-print").data
def sLtHr : Str := ("<hr").data

/-- `extract_section(html, tag, class_name=None)`: the matching
sections, each re-serialized with `str(section)`. -/
def extract_section (html : Str) (tag : Str) (class_name : Option Str := none) : List Str :=
  (findAllNodes { tag := some tag, cls := class_name } (parse html)).map serializeNode

/-- `extract_content_by_class(html_content, class_name)`: stripped text
of every element of the class, document order. -/
def extract_content_by_class (html_content : Str) (class_name : Str) : List Str :=
  (findAllNodes { cls := some class_name } (parse html_content)).map getTextStrip

/-- `extract_links_and_text(anchor_tags)`: href → link text as a dict,
from the first `<a href=...>` of each tag string. -/
def extract_links_and_text (anchor_tags : List Str) : List (Str × Str) :=
  anchor_tags.foldl
    (fun links_dict tag =>
      match findFirst { tag := some sA, hasAttr := some sHref } (parse tag) with
      | some (Node.elem _ attrs children) =>
        dictInsert links_dict ((getAttr attrs sHref).getD [])
          (getTextStrip (Node.elem sA attrs children))
      | _ => links_dict)
    []

/-- `extract_stylesheet_links(html)`: hrefs of `<link rel=stylesheet>`
elements in document order, skipping missing or empty hrefs (Python's
`if href:`). -/
def extract_stylesheet_links (html : Str) : List Str :=
  (findAllNodes { tag := some sLink, relTok := some sStylesheet } (parse html)).foldr
    (fun n acc =>
      match n with
      | Node.elem _ attrs _ =>
        match getAttr attrs sHref with
        | some href => if href = [] then acc else href :: acc
        | none => acc
      | _ => acc)
    []

/-- The base-URL normalization `url[:url.rfind('/') + 1]` applied when
the URL does not end in `/` (Python's `rfind` returns `-1`, hence the
empty string, when there is no slash at all). -/
def normalizeBase (url : Str) : Str :=
  if url.getLast? = some '/' then url
  else
    match rfindSubstrIdx url (('/') :: []) with
    | some i => url.take (i + 1)
    | none => []

/-- `get_chapter_urls(url)` given the fetched index page: the last
`<ul>`'s anchors as a dict of `url + href → text`; `none` models the
`IndexError` that `.pop()` raises when the page has no `<ul>` at all
(the spec's `IndexNotFound`). -/
def get_chapter_urls (url : Str) (index_page : Str) : Option (List (Str × Str)) :=
  let url' := normalizeBase url
  match (extract_section index_page sUl).getLast? with
  | none => none
  | some sec =>
    let anchors := extract_section sec sA
    let links := extract_links_and_text anchors
    some (links.map (fun kv => (url' ++ kv.1, kv.2)))

/-- `remove_leading_to_class(html_content, target_class)`. -/
def remove_leading_to_class (html_content : Str) (target_class : Str) : Str :=
  match findFirst { cls := some target_class } (parse html_content) with
  | some target_element =>
    let t := serializeNode target_element
    match findSubstrIdx html_content t with
    | some target_position => html_content.drop (target_position + t.length)
    | none => html_content
  | none => html_content

/-- `remove_rightmost_div_by_class(html_content, target_class)`. -/
def remove_rightmost_div_by_class (html_content : Str) (target_class : Str) : Str :=
  match (findAllNodes { tag := some sDiv, cls := some target_class }
      (parse html_content)).getLast? with
  | some last_div =>
    let t := serializeNode last_div
    match rfindSubstrIdx html_content t with
    | some div_position => html_content.take div_position
    | none => html_content
  | none => html_content

/-- `remove_divs_by_class(html_content, target_class)`: decompose every
matching `<div>` and re-serialize the soup. -/
def remove_divs_by_class (html_content : Str) (target_class : Str) : Str :=
  serializeNodes (removeAllNodes { tag := some sDiv, cls := some target_class }
    (parse html_content))

def headTags : List Str :=
  [("h1").data, ("h2").data, ("h3").data, ("h4").data]

def hasProtectedClass (attrs : List (Str × Str)) : Bool :=
  (getClasses attrs).contains sTitle || (getClasses attrs).contains sAuthor
    || (getClasses attrs).contains sSubtitle

mutual

/-- The per-tag mutation of `modify_headline_classes`: every `h1`-`h4`
without a `title`/`author`/`subtitle` class gets its class list
replaced by `["chapter"]`. -/
def mapHeadNode : Node → Node
  | .text s => .text s
  | .elem t attrs children =>
    let attrs' :=
      if headTags.contains t && !hasProtectedClass attrs then
        dictInsert attrs sClass sChapter
      else attrs
    .elem t attrs' (mapHeadNodes children)

def mapHeadNodes : List Node → List Node
  | [] => []
  | n :: ns => mapHeadNode n :: mapHeadNodes ns

end

/-- `modify_headline_classes(html_content)`. -/
def modify_headline_classes (html_content : Str) : Str :=
  serializeNodes (mapHeadNodes (parse html_content))

/-- The key/value contribution of one `<meta>` element in
`extract_meta_tags`: `meta.get('name') or meta.get('property')` as the
key, `meta.get('content')` as the value, kept only when both are
truthy (`if key and value:`). -/
def metaContribution (attrs : List (Str × Str)) : Option (Str × Str) :=
  let key :=
    match getAttr attrs sName with
    | some n => if n = [] then getAttr attrs sProperty else some n
    | none => getAttr attrs sProperty
  match key, getAttr attrs sContent with
  | some k, some v => if k = [] || v = [] then none else some (k, v)
  | _, _ => none

/-- `extract_meta_tags(html_string)`. -/
def extract_meta_tags (html_string : Str) : List (Str × Str) :=
  (findAllNodes { tag := some sMeta } (parse html_string)).foldl
    (fun meta_tags n =>
      match n with
      | Node.elem _ attrs _ =>
        match metaContribution attrs with
        | some kv => dictInsert meta_tags kv.1 kv.2
        | none => meta_tags
      | _ => meta_tags)
    []

/-- The `page.rfind('<hr')` trimming stage of `get_prosa`. -/
def trim_after_last_hr (page : Str) : Str :=
  match rfindSubstrIdx page sLtHr with
  | some last_hr_index => page.take last_hr_index
  | none => page

/-- `get_prosa(url)` given the fetched chapter page. -/
def get_prosa (page : Str) : Str :=
  let page1 := remove_leading_to_class page sAnzeigeChap
  let page2 := remove_rightmost_div_by_class page1 sBottomnaviGb
  let page3 := remove_divs_by_class page2 sAnzeigePrint
  let page4 := trim_after_last_hr page3
  modify_headline_classes page4

/-- The author resolution of `write_book` (lines 418-423): first
element of class `author` in the assembled prose, else the `author`
meta tag, else `"Unknown"`. -/
def write_book_author (book_content : Str) (meta_tags : List (Str × Str)) : Str :=
  match extract_content_by_class book_content sAuthor with
  | a :: _ => a
  | [] => (dictLookup meta_tags sAuthor).getD sUnknown

/-- The title resolution of `write_book` (lines 424-429). -/
def write_book_title (book_content : Str) (meta_tags : List (Str × Str)) : Str :=
  match extract_content_by_class book_content sTitle with
  | t :: _ => t
  | [] => (dictLookup meta_tags sTitle).getD sUnknown

/-! ### URL and path helpers (`urllib.parse.urljoin`, `urlparse`,
`os.path`), modelled on the call shapes this program makes: http(s)
bases and resource URLs, POSIX paths, no `..` segment normalization
and no query/fragment in bases. -/

/-- The URL scheme, when the string starts with one (`letters:`). -/
def schemeOf (u : Str) : Option Str :=
  let p := u.takeWhile Char.isAlpha
  if p ≠ [] && (u.drop p.length).head? = some ':' then some p else none

def isDoubleSlash (u : Str) : Bool :=
  isPfx ((('/') :: ('/') :: []) : Str) u

/-- The prefix of a path up to and including its last `/` (empty when
there is no slash). -/
def dirUpToLastSlash (p : Str) : Str :=
  match rfindSubstrIdx p (('/') :: []) with
  | some i => p.take (i + 1)
  | none => []

/-- `urllib.parse.urljoin(base, url)`. -/
def urljoin (base url : Str) : Str :=
  if url = [] then base
  else if (schemeOf url).isSome then url
  else if isDoubleSlash url then
    match schemeOf base with
    | some sch => sch ++ ':' :: url
    | none => url
  else
    match schemeOf base with
    | some sch =>
      let r := base.drop (sch.length + 1)
      if isDoubleSlash r then
        let hp := r.drop 2
        let host := hp.takeWhile (fun c => c != '/')
        let path := hp.dropWhile (fun c => c != '/')
        let newPath :=
          if url.head? = some '/' then url
          else (if dirUpToLastSlash path = [] then (('/') :: []) else dirUpToLastSlash path) ++ url
        sch ++ ':' :: '/' :: '/' :: (host ++ newPath)
      else
        if url.head? = some '/' then sch ++ ':' :: url
        else sch ++ ':' :: (dirUpToLastSlash r ++ url)
    | none =>
      if url.head? = some '/' then url
      else dirUpToLastSlash base ++ url

/-- `urlparse(u).path`. -/
def urlPath (u : Str) : Str :=
  let afterScheme :=
    match schemeOf u with
    | some sch =>
      let r := u.drop (sch.length + 1)
      if isDoubleSlash r then (r.drop 2).dropWhile (fun c => c != '/') else r
    | none => u
  afterScheme.takeWhile (fun c => c != '?' && c != '#')

/-- `os.path.basename`. -/
def basenameOf (p : Str) : Str :=
  (p.reverse.takeWhile (fun c => c != '/')).reverse

/-- `os.path.join` for a nonempty directory and a relative tail. -/
def pathJoin (a b : Str) : Str := a ++ '/' :: b

/-- `os.path.relpath(p, start)` for the shapes `write_book` produces
(`start` a plain directory name that prefixes `p`). -/
def relPath (p start : Str) : Str :=
  if isPfx (start ++ ('/') :: []) p then p.drop (start.length + 1) else p

/-! ### `convert_relative_to_absolute` -/

mutual

/-- The per-element rewrite of `convert_relative_to_absolute`: anchor
hrefs, image srcs, link hrefs and script srcs (each only when the
attribute is present) are passed through `urljoin(base_url, ·)`. -/
def absNode (b : Str) : Node → Node
  | .text s => .text s
  | .elem t attrs children =>
    let attrs' :=
      if (t = sA || t = sLink) && (getAttr attrs sHref).isSome then
        dictInsert attrs sHref (urljoin b ((getAttr attrs sHref).getD []))
      else if (t = sImg || t = sScript) && (getAttr attrs sSrc).isSome then
        dictInsert attrs sSrc (urljoin b ((getAttr attrs sSrc).getD []))
      else attrs
    .elem t attrs' (absNodes b children)

def absNodes (b : Str) : List Node → List Node
  | [] => []
  | n :: ns => absNode b n :: absNodes b ns

end

/-- Outcome of downloading one resource URL and saving it: the network
and filesystem are external collaborators, abstracted as an oracle.
`ok` carries `response.content`; `fetchFail` models a
`requests.RequestException` (caught per resource); `saveFail` models
an `OSError` from `open`/`write` (which nothing in the source
catches). -/
inductive DL where
  | ok (content : Str)
  | fetchFail
  | saveFail

/-- The filename derived for a resource URL:
`os.path.basename(urlparse(full_url).path)`. -/
def localFilename (full_url : Str) : Str := basenameOf (urlPath full_url)

/-- `download_and_replace(tag, attribute)`: on success returns the
updated attributes, the file write `(local_path, content)` and the
manifest entry `(full_url, new reference)`; a fetch failure leaves the
tag untouched; a save failure escapes as an exception. -/
def download_and_replace (oracle : Str → DL) (resources_dir save_dir html_filename : Str)
    (attrs : List (Str × Str)) (attrName : Str) :
    Except Unit (List (Str × Str) × List (Str × Str) × List (Str × Str)) :=
  match getAttr attrs attrName with
  | none => .ok (attrs, [], [])
  | some url =>
    if url = [] then .ok (attrs, [], [])
    else
      let full_url := urljoin html_filename url
      let local_path := pathJoin resources_dir (localFilename full_url)
      match oracle full_url with
      | .ok content =>
        .ok (dictInsert attrs attrName (relPath local_path save_dir),
          [(local_path, content)], [(full_url, relPath local_path save_dir)])
      | .fetchFail => .ok (attrs, [], [])
      | .saveFail => .error ()

mutual

/-- One `find_all(...)` + `download_and_replace` pass over the tree,
in document order, threading the uncaught-exception monad and
accumulating file writes and manifest entries. -/
def mirrorNode (oracle : Str → DL) (rd sd fn : Str) (sel : Sel) (attrName : Str) :
    Node → Except Unit (Node × List (Str × Str) × List (Str × Str))
  | .text s => .ok (.text s, [], [])
  | .elem t attrs children => do
    let (attrs', w1, m1) ←
      if selMatch sel t attrs then
        download_and_replace oracle rd sd fn attrs attrName
      else .ok (attrs, [], [])
    let (children', w2, m2) ← mirrorNodes oracle rd sd fn sel attrName children
    .ok (.elem t attrs' children', w1 ++ w2, m1 ++ m2)

def mirrorNodes (oracle : Str → DL) (rd sd fn : Str) (sel : Sel) (attrName : Str) :
    List Node → Except Unit (List Node × List (Str × Str) × List (Str × Str))
  | [] => .ok ([], [], [])
  | n :: ns => do
    let (n', w1, m1) ← mirrorNode oracle rd sd fn sel attrName n
    let (ns', w2, m2) ← mirrorNodes oracle rd sd fn sel attrName ns
    .ok (n' :: ns', w1 ++ w2, m1 ++ m2)

end

/-- The resource directory name: strip a trailing `.html`, append
`_files`. -/
def resourcesDirName (html_filename : Str) : Str :=
  if isSfx ((".html").data) html_filename then
    html_filename.take (html_filename.length - 5) ++ ("_files").data
  else html_filename ++ ("_files").data

/-- `save_html_with_resources(html_string, save_dir, html_filename)`:
returns the final document text, the list of file writes
`(path, content)` in order (resources, then the document itself) and
the resource manifest `remote URL → rewritten reference`.  A save
failure aborts the whole function (nothing catches the `OSError`). -/
def save_html_with_resources (oracle : Str → DL) (html_string save_dir html_filename : Str) :
    Except Unit (Str × List (Str × Str) × List (Str × Str)) := do
  let resources_dir := pathJoin save_dir (resourcesDirName html_filename)
  let soup := parse html_string
  let (soup1, w1, m1) ← mirrorNodes oracle resources_dir save_dir html_filename
    { tag := some sImg } sSrc soup
  let (soup2, w2, m2) ← mirrorNodes oracle resources_dir save_dir html_filename
    { tag := some sLink, relTok := some sStylesheet } sHref soup1
  let (soup3, w3, m3) ← mirrorNodes oracle resources_dir save_dir html_filename
    { tag := some sScript } sSrc soup2
  let html_path := pathJoin save_dir html_filename
  let finalDoc := serializeNodes soup3
  .ok (finalDoc, (w1 ++ w2 ++ w3) ++ [(html_path, finalDoc)], m1 ++ m2 ++ m3)

/-! ### The failure-free mirror (the same per-tag computation as
`download_and_replace`, with no exception channel): the comparison
point for the failure-locality claim. -/

/-- `download_and_replace` as a pure per-tag map: a fetch failure (and
only a fetch failure) leaves the tag untouched with no write and no
manifest entry. -/
def download_and_replace_total (oracle : Str → DL) (rd sd fn : Str)
    (attrs : List (Str × Str)) (attrName : Str) :
    List (Str × Str) × List (Str × Str) × List (Str × Str) :=
  match getAttr attrs attrName with
  | none => (attrs, [], [])
  | some url =>
    if url = [] then (attrs, [], [])
    else
      let full_url := urljoin fn url
      let local_path := pathJoin rd (localFilename full_url)
      match oracle full_url with
      | .ok content =>
        (dictInsert attrs attrName (relPath local_path sd),
          [(local_path, content)], [(full_url, relPath local_path sd)])
      | _ => (attrs, [], [])

mutual

def mirrorNodeT (oracle : Str → DL) (rd sd fn : Str) (sel : Sel) (attrName : Str) :
    Node → Node × List (Str × Str) × List (Str × Str)
  | .text s => (.text s, [], [])
  | .elem t attrs children =>
    let p :=
      if selMatch sel t attrs then download_and_replace_total oracle rd sd fn attrs attrName
      else (attrs, [], [])
    let q := mirrorNodesT oracle rd sd fn sel attrName children
    (.elem t p.1 q.1, p.2.1 ++ q.2.1, p.2.2 ++ q.2.2)

def mirrorNodesT (oracle : Str → DL) (rd sd fn : Str) (sel : Sel) (attrName : Str) :
    List Node → List Node × List (Str × Str) × List (Str × Str)
  | [] => ([], [], [])
  | n :: ns =>
    let p := mirrorNodeT oracle rd sd fn sel attrName n
    let q := mirrorNodesT oracle rd sd fn sel attrName ns
    (p.1 :: q.1, p.2.1 ++ q.2.1, p.2.2 ++ q.2.2)

end

/-- `save_html_with_resources` with every per-resource outcome handled
locally (no exception channel). -/
def save_html_with_resources_total (oracle : Str → DL) (html_string save_dir html_filename : Str) :
    Str × List (Str × Str) × List (Str × Str) :=
  let resources_dir := pathJoin save_dir (resourcesDirName html_filename)
  let soup := parse html_string
  let p1 := mirrorNodesT oracle resources_dir save_dir html_filename
    { tag := some sImg } sSrc soup
  let p2 := mirrorNodesT oracle resources_dir save_dir html_filename
    { tag := some sLink, relTok := some sStylesheet } sHref p1.1
  let p3 := mirrorNodesT oracle resources_dir save_dir html_filename
    { tag := some sScript } sSrc p2.1
  let html_path := pathJoin save_dir html_filename
  let finalDoc := serializeNodes p3.1
  (finalDoc, (p1.2.1 ++ p2.2.1 ++ p3.2.1) ++ [(html_path, finalDoc)], p1.2.2 ++ p2.2.2 ++ p3.2.2)

/-! ### Well-formed trees

`wfNodes` captures exactly the trees the tokenizer can produce:
lowercase names, nonempty text runs, no two adjacent text runs, void
elements childless.  On such trees serialization and parsing are
mutually inverse. -/

def isTextNode : Node → Bool
  | .text _ => true
  | .elem _ _ _ => false

def wfName (t : Str) : Bool :=
  !t.isEmpty && (match t.head? with | some c => isAlphaA c | none => false)
    && t.all (fun c => isNameBodyChar c && toLowerA c == c)

def wfAttr (a : Str × Str) : Bool :=
  !a.1.isEmpty && a.1.all (fun c => isAttrNameChar c && toLowerA c == c)

mutual

def wfNode : Node → Bool
  | .text s => !s.isEmpty
  | .elem t attrs children =>
    wfName t && attrs.all wfAttr && (!isVoidTag t || children.isEmpty) && wfNodes children

def wfNodes : List Node → Bool
  | [] => true
  | [n] => wfNode n
  | a :: b :: rest => wfNode a && !(isTextNode a && isTextNode b) && wfNodes (b :: rest)

end

mutual

/-- The token stream that serializing a node produces when tokenized
again. -/
def serToksNode : Node → List Tok
  | .text s => [.text s]
  | .elem t attrs children =>
    if isVoidTag t then [.opened t attrs true]
    else .opened t attrs false :: (serToksNodes children ++ [.close t])

def serToksNodes : List Node → List Tok
  | [] => []
  | n :: ns => serToksNode n ++ serToksNodes ns

end

/-! ### Accessors used in claim statements -/

def anchorHref (n : Node) : Str :=
  match n with
  | .elem _ attrs _ => (getAttr attrs sHref).getD []
  | .text _ => []

def elemHasAttr (n : Node) (a : Str) : Bool :=
  match n with
  | .elem _ attrs _ => (getAttr attrs a).isSome
  | .text _ => false

/-- Is every link-resolution-relevant attribute of the element already
an absolute URL (one with a scheme)? -/
def attrAbsOk (t : Str) (attrs : List (Str × Str)) : Bool :=
  (if t = sA || t = sLink then
    (match getAttr attrs sHref with | some u => (schemeOf u).isSome | none => true)
   else true)
  && (if t = sImg || t = sScript then
    (match getAttr attrs sSrc with | some u => (schemeOf u).isSome | none => true)
   else true)

mutual

def allAbsNode : Node → Bool
  | .text _ => true
  | .elem t attrs children => attrAbsOk t attrs && allAbsNodes children

def allAbsNodes : List Node → Bool
  | [] => true
  | n :: ns => allAbsNode n && allAbsNodes ns

end

/-- The contributions of the `<meta>` elements of a page, in document
order, before dict insertion. -/
def metaContribs (html : Str) : List (Str × Str) :=
  (findAllNodes { tag := some sMeta } (parse html)).filterMap
    (fun n => match n with
      | Node.elem _ attrs _ => metaContribution attrs
      | _ => none)

/-- Build a Python dict from a pair list, first to last. -/
def dictOfPairs (pairs : List (Str × Str)) : List (Str × Str) :=
  pairs.foldl (fun d kv => dictInsert d kv.1 kv.2) []

/-- The child list new completed nodes go into: the innermost open
frame's, or the finished top-level sequence. -/
def topChildren (st : List Frame) (done : List Node) : List Node :=
  match st with
  | [] => done
  | f :: _ => f.children

/-- Append a run of completed nodes to the current insertion point. -/
def stApp (st : List Frame) (done : List Node) (ts : List Node) : List Frame × List Node :=
  match st with
  | [] => ([], done ++ ts)
  | f :: r => ({ f with children := f.children ++ ts } :: r, done)

/-- No text run is split across the insertion seam: the current
insertion point may not end in a text node while the appended run
starts with one. -/
def seamOk (st : List Frame) (done : List Node) (ts : List Node) : Prop :=
  ∀ a b, (topChildren st done).getLast? = some (Node.text a)
    → ts.head? = some (Node.text b) → False

/-- Well-formedness of a token: text runs nonempty, open-tag names and
attributes well-formed (as the tokenizer guarantees). -/
def wfTok : Tok → Bool
  | .text s => !s.isEmpty
  | .opened t attrs _ => wfName t && attrs.all wfAttr
  | .close _ => true

/-- The children of a node (empty for a text run). -/
def childrenOf : Node → List Node
  | .text _ => []
  | .elem _ _ cs => cs

/-- Well-formedness of an open frame on the builder's stack. -/
def wfFrame (f : Frame) : Bool :=
  wfName f.tag && !isVoidTag f.tag && f.attrs.all wfAttr && wfNodes f.children

/-- The attribute list of an element (empty for a text run). -/
def attrsOf : Node → List (Str × Str)
  | .text _ => []
  | .elem _ attrs _ => attrs

/-! ## Lemmas -/

theorem takeWhile_append_stop (p : Char → Bool) (xs : Str) (d : Char) (r : Str)
    (hxs : ∀ c ∈ xs, p c = true) (hd : p d = false) :
    (xs ++ d :: r).takeWhile p = xs ∧ (xs ++ d :: r).dropWhile p = d :: r := by
  induction xs with
  | nil => simp [List.takeWhile, List.dropWhile, hd]
  | cons x xs ih =>
    have hx : p x = true := hxs x (List.mem_cons_self x xs)
    have ih' := ih (fun c hc => hxs c (List.mem_cons_of_mem x hc))
    simp [List.takeWhile, List.dropWhile, hx, ih'.1, ih'.2]

theorem unescapeLoop_congr : ∀ (f1 f2 : Nat) (s : Str),
    s.length ≤ f1 → s.length ≤ f2 → unescapeLoop f1 s = unescapeLoop f2 s := by
  intro f1
  induction f1 with
  | zero =>
    intro f2 s h1 _
    have : s = [] := List.eq_nil_of_length_eq_zero (Nat.le_zero.mp h1)
    subst this
    cases f2 <;> rfl
  | succ f1 ih =>
    intro f2 s h1 h2
    match s with
    | [] => cases f2 <;> rfl
    | c :: rest =>
      match f2, h2 with
      | g2 + 1, h2 =>
        simp only [unescapeLoop]
        have hr : rest.length ≤ f1 := by simp at h1; omega
        have hr2 : rest.length ≤ g2 := by simp at h2; omega
        by_cases hc : c == '&'
        · simp only [hc, if_pos]
          cases he : entityHead rest with
          | some p =>
            have hd : (rest.drop p.2).length ≤ rest.length := by
              simp [List.length_drop]
            dsimp only
            rw [ih g2 (rest.drop p.2) (le_trans hd hr) (le_trans hd hr2)]
          | none =>
            dsimp only
            rw [ih g2 rest hr hr2]
        · simp only [Bool.not_eq_true] at hc
          simp only [hc, Bool.false_eq_true, if_false]
          rw [ih g2 rest hr hr2]

theorem unescapeLoop_escapeText (s : Str) :
    ∀ fuel, (escapeText s).length ≤ fuel → unescapeLoop fuel (escapeText s) = s := by
  induction s with
  | nil => intro fuel _; cases fuel <;> rfl
  | cons c cs ih =>
    intro fuel hf
    have hlen : (escapeText (c :: cs)).length
        = (escTextChar c).length + (escapeText cs).length := by
      show (escTextChar c ++ escapeText cs).length = _
      simp
    by_cases h1 : c = '&'
    · subst h1
      have he : escapeText ('&' :: cs) = '&' :: 'a' :: 'm' :: 'p' :: ';' :: escapeText cs := rfl
      rw [he] at hf ⊢
      match fuel, hf with
      | g + 1, hf =>
        have hh : entityHead ('a' :: 'm' :: 'p' :: ';' :: escapeText cs) = some ('&', 4) := rfl
        simp [unescapeLoop, hh, ih g (by simp at hf; omega)]
    · by_cases h2 : c = '<'
      · subst h2
        have he : escapeText ('<' :: cs) = '&' :: 'l' :: 't' :: ';' :: escapeText cs := rfl
        rw [he] at hf ⊢
        match fuel, hf with
        | g + 1, hf =>
          have hh : entityHead ('l' :: 't' :: ';' :: escapeText cs) = some ('<', 3) := rfl
          simp [unescapeLoop, hh, ih g (by simp at hf; omega)]
      · by_cases h3 : c = '>'
        · subst h3
          have he : escapeText ('>' :: cs) = '&' :: 'g' :: 't' :: ';' :: escapeText cs := rfl
          rw [he] at hf ⊢
          match fuel, hf with
          | g + 1, hf =>
            have hh : entityHead ('g' :: 't' :: ';' :: escapeText cs) = some ('>', 3) := rfl
            simp [unescapeLoop, hh, ih g (by simp at hf; omega)]
        · have he : escapeText (c :: cs) = c :: escapeText cs := by
            show escTextChar c ++ escapeText cs = _
            simp [escTextChar, h1, h2, h3]
          rw [he] at hf ⊢
          match fuel, hf with
          | g + 1, hf =>
            have hc : (c == '&') = false := by
              simp [h1]
            simp [unescapeLoop, hc, ih g (by simp at hf; omega)]

theorem unescape_escapeText (s : Str) : unescapeHtml (escapeText s) = s :=
  unescapeLoop_escapeText s (escapeText s).length le_rfl

theorem unescapeLoop_escapeAttr (v : Str) :
    ∀ fuel, (escapeAttr v).length ≤ fuel → unescapeLoop fuel (escapeAttr v) = v := by
  induction v with
  | nil => intro fuel _; cases fuel <;> rfl
  | cons c cs ih =>
    intro fuel hf
    by_cases h1 : c = '&'
    · subst h1
      have he : escapeAttr ('&' :: cs) = '&' :: 'a' :: 'm' :: 'p' :: ';' :: escapeAttr cs := rfl
      rw [he] at hf ⊢
      match fuel, hf with
      | g + 1, hf =>
        have hh : entityHead ('a' :: 'm' :: 'p' :: ';' :: escapeAttr cs) = some ('&', 4) := rfl
        simp [unescapeLoop, hh, ih g (by simp at hf; omega)]
    · by_cases h2 : c = '"'
      · subst h2
        have he : escapeAttr ('"' :: cs)
            = '&' :: 'q' :: 'u' :: 'o' :: 't' :: ';' :: escapeAttr cs := rfl
        rw [he] at hf ⊢
        match fuel, hf with
        | g + 1, hf =>
          have hh : entityHead ('q' :: 'u' :: 'o' :: 't' :: ';' :: escapeAttr cs)
              = some ('"', 5) := rfl
          simp [unescapeLoop, hh, ih g (by simp at hf; omega)]
      · have he : escapeAttr (c :: cs) = c :: escapeAttr cs := by
          show escAttrChar c ++ escapeAttr cs = _
          simp [escAttrChar, h1, h2]
        rw [he] at hf ⊢
        match fuel, hf with
        | g + 1, hf =>
          have hc : (c == '&') = false := by simp [h1]
          simp [unescapeLoop, hc, ih g (by simp at hf; omega)]

theorem unescape_escapeAttr (v : Str) : unescapeHtml (escapeAttr v) = v :=
  unescapeLoop_escapeAttr v (escapeAttr v).length le_rfl

/-! Character-class facts. -/

theorem char_toNat_ofNat (n : Nat) (h : n < 55296) : (Char.ofNat n).toNat = n := by
  have hv : n.isValidChar := Or.inl h
  simp [Char.ofNat, hv, Char.toNat, Char.ofNatAux, UInt32.toNat]

theorem char_beq_false {a b : Char} (h : a.toNat ≠ b.toNat) : (a == b) = false := by
  cases hab : a == b
  · rfl
  · exact absurd (congrArg Char.toNat (eq_of_beq hab)) h

theorem toLowerA_toNat_upper {c : Char} (h : isUpperA c = true) :
    (toLowerA c).toNat = c.toNat + 32 := by
  simp [isUpperA] at h
  rw [toLowerA, if_pos (by simp [isUpperA]; omega)]
  exact char_toNat_ofNat _ (by omega)

theorem toLowerA_eq_self {c : Char} (h : isUpperA c = false) : toLowerA c = c := by
  rw [toLowerA, if_neg]
  simp [h]

theorem isUpperA_toLowerA (c : Char) : isUpperA (toLowerA c) = false := by
  cases hu : isUpperA c
  · rw [toLowerA_eq_self hu, hu]
  · have ht := toLowerA_toNat_upper hu
    simp [isUpperA] at hu ⊢
    omega

theorem toLowerA_fix (c : Char) : toLowerA (toLowerA c) = toLowerA c :=
  toLowerA_eq_self (isUpperA_toLowerA c)

theorem toNat_toLowerA_range {c : Char} (h : isUpperA c = true) :
    97 ≤ (toLowerA c).toNat ∧ (toLowerA c).toNat ≤ 122 := by
  have := toLowerA_toNat_upper h
  simp [isUpperA] at h
  omega

theorem isAlphaA_toLowerA {c : Char} (h : isAlphaA c = true) :
    isAlphaA (toLowerA c) = true := by
  cases hu : isUpperA c
  · rw [toLowerA_eq_self hu]; exact h
  · have := toNat_toLowerA_range hu
    simp [isAlphaA, isUpperA]
    omega

theorem isNameBody_toLowerA {c : Char} (h : isNameBodyChar c = true) :
    isNameBodyChar (toLowerA c) = true := by
  cases hu : isUpperA c
  · rw [toLowerA_eq_self hu]; exact h
  · have := toNat_toLowerA_range hu
    simp [isNameBodyChar, isAlphaA, isUpperA, isDigitA]
    omega

theorem isWs_false_of_toNat {c : Char} (h : 33 ≤ c.toNat) : isWs c = false := by
  have f1 : (c == ' ') = false := char_beq_false (by
    have : (' ' : Char).toNat = 32 := rfl
    omega)
  have f2 : (c == Char.ofNat 9) = false := char_beq_false (by
    have : (Char.ofNat 9).toNat = 9 := rfl
    omega)
  have f3 : (c == Char.ofNat 10) = false := char_beq_false (by
    have : (Char.ofNat 10).toNat = 10 := rfl
    omega)
  have f4 : (c == Char.ofNat 13) = false := char_beq_false (by
    have : (Char.ofNat 13).toNat = 13 := rfl
    omega)
  have f5 : (c == Char.ofNat 11) = false := char_beq_false (by
    have : (Char.ofNat 11).toNat = 11 := rfl
    omega)
  have f6 : (c == Char.ofNat 12) = false := char_beq_false (by
    have : (Char.ofNat 12).toNat = 12 := rfl
    omega)
  simp only [isWs, f1, f2, f3, f4, f5, f6, Bool.or_false]

theorem isAttrNameChar_toLowerA {c : Char} (h : isAttrNameChar c = true) :
    isAttrNameChar (toLowerA c) = true := by
  cases hu : isUpperA c
  · rw [toLowerA_eq_self hu]; exact h
  · have hr := toNat_toLowerA_range hu
    have hws : isWs (toLowerA c) = false := isWs_false_of_toNat (by omega)
    have he : ((toLowerA c) == '=') = false := char_beq_false (by
      have : ('=' : Char).toNat = 61 := rfl
      omega)
    have hg : ((toLowerA c) == '>') = false := char_beq_false (by
      have : ('>' : Char).toNat = 62 := rfl
      omega)
    have hs : ((toLowerA c) == '/') = false := char_beq_false (by
      have : ('/' : Char).toNat = 47 := rfl
      omega)
    simp [isAttrNameChar, hws, he, hg, hs]

theorem map_toLowerA_id {t : Str} (h : ∀ c ∈ t, toLowerA c = c) : t.map toLowerA = t := by
  induction t with
  | nil => rfl
  | cons c cs ih =>
    simp only [List.map_cons, h c (List.mem_cons_self c cs)]
    rw [ih (fun x hx => h x (List.mem_cons_of_mem c hx))]

/-! Facts about the serialized escape chunks. -/

theorem escTextChar_ne_lt (c : Char) : ∀ x ∈ escTextChar c, x ≠ '<' := by
  intro x hx
  by_cases h1 : c = '&'
  · subst h1; simp [escTextChar] at hx; rcases hx with h | h | h | h | h <;> simp [h]
  · by_cases h2 : c = '<'
    · subst h2; simp [escTextChar] at hx
      rcases hx with h | h | h | h <;> simp [h]
    · by_cases h3 : c = '>'
      · subst h3; simp [escTextChar] at hx
        rcases hx with h | h | h | h <;> simp [h]
      · simp [escTextChar, h1, h2, h3] at hx
        subst hx
        exact h2

theorem escapeText_ne_lt (s : Str) : ∀ x ∈ escapeText s, x ≠ '<' := by
  induction s with
  | nil => intro x hx; simp [escapeText] at hx
  | cons c cs ih =>
    intro x hx
    rcases List.mem_append.mp hx with h | h
    · exact escTextChar_ne_lt c x h
    · exact ih x h

theorem escTextChar_ne_nil (c : Char) : escTextChar c ≠ [] := by
  by_cases h1 : c = '&'
  · subst h1; simp [escTextChar]
  · by_cases h2 : c = '<'
    · subst h2; simp [escTextChar]
    · by_cases h3 : c = '>'
      · subst h3; simp [escTextChar]
      · simp [escTextChar, h1, h2, h3]

theorem escapeText_ne_nil {s : Str} (h : s ≠ []) : escapeText s ≠ [] := by
  match s, h with
  | c :: cs, _ =>
    show escTextChar c ++ escapeText cs ≠ []
    simp [escTextChar_ne_nil c]

theorem escAttrChar_ne_quot (c : Char) : ∀ x ∈ escAttrChar c, x ≠ '"' := by
  intro x hx
  by_cases h1 : c = '&'
  · subst h1; simp [escAttrChar] at hx; rcases hx with h | h | h | h | h <;> simp [h]
  · by_cases h2 : c = '"'
    · subst h2; simp [escAttrChar] at hx
      rcases hx with h | h | h | h | h | h <;> simp [h]
    · simp [escAttrChar, h1, h2] at hx
      subst hx
      exact h2

theorem escapeAttr_ne_quot (v : Str) : ∀ x ∈ escapeAttr v, x ≠ '"' := by
  induction v with
  | nil => intro x hx; simp [escapeAttr] at hx
  | cons c cs ih =>
    intro x hx
    rcases List.mem_append.mp hx with h | h
    · exact escAttrChar_ne_quot c x h
    · exact ih x h

/-! Raw-text scanning. -/

theorem tagStartAt_false_of_ne_lt {c : Char} (h : c ≠ '<') (r : Str) :
    tagStartAt (c :: r) = false := by
  cases r with
  | nil => rfl
  | cons d r' =>
    simp [tagStartAt, h]

theorem takeRawText_stop {u : Str} (h : tagStartAt u = true) : takeRawText u = ([], u) := by
  match u with
  | [] => simp [tagStartAt] at h
  | c :: rest => simp [takeRawText, h]

theorem takeRawText_chunk (ch : Str) (u : Str) (hch : ∀ x ∈ ch, x ≠ '<')
    (hu : u = [] ∨ tagStartAt u = true) : takeRawText (ch ++ u) = (ch, u) := by
  induction ch with
  | nil =>
    rcases hu with h | h
    · subst h; rfl
    · exact takeRawText_stop h
  | cons x ch' ih =>
    have hx : x ≠ '<' := hch x (List.mem_cons_self x ch')
    have hts := tagStartAt_false_of_ne_lt hx (ch' ++ u)
    have ih' := ih (fun y hy => hch y (List.mem_cons_of_mem x hy))
    simp [takeRawText, hts, ih']

/-! Attribute scanning. -/

theorem attrNameChar_props {c : Char} (h : isAttrNameChar c = true) :
    isWs c = false ∧ (c == '=') = false ∧ (c == '>') = false ∧ (c == '/') = false := by
  simp only [isAttrNameChar, Bool.not_eq_true', Bool.or_eq_false_iff] at h
  exact ⟨h.1.1.1, h.1.1.2, h.1.2, h.2⟩

theorem dropWs_cons_not_ws (c : Char) (h : isWs c = false) (r : Str) :
    dropWs (c :: r) = c :: r := by
  simp [dropWs, List.dropWhile_cons, h]

theorem dropWs_cons_ws (c : Char) (h : isWs c = true) (r : Str) :
    dropWs (c :: r) = dropWs r := by
  simp [dropWs, List.dropWhile_cons, h]

theorem wfAttr_parts {n v : Str} (h : wfAttr (n, v) = true) :
    n ≠ [] ∧ ∀ c ∈ n, isAttrNameChar c = true ∧ toLowerA c = c := by
  simp only [wfAttr, Bool.and_eq_true, List.all_eq_true] at h
  refine ⟨by simpa using h.1, fun c hc => ?_⟩
  have := h.2 c hc
  simp only [Bool.and_eq_true, beq_iff_eq] at this
  exact this

/-- `parseAttrs` consumes a serialized attribute list and the closing
`>` (or `/>`), returning exactly the attributes it came from. -/
theorem parseAttrs_ser (attrs : List (Str × Str)) :
    ∀ fuel tail (sc : Bool), attrs.all wfAttr = true → attrs.length < fuel →
    parseAttrs fuel (serializeAttrs attrs ++ (if sc then '/' :: '>' :: tail else '>' :: tail))
      = (attrs, sc, tail) := by
  induction attrs with
  | nil =>
    intro fuel tail sc _ hf
    match fuel, hf with
    | fuel + 1, _ =>
      cases sc
      · have hd : dropWs ('>' :: tail) = '>' :: tail :=
          dropWs_cons_not_ws '>' (by rfl) tail
        simp [parseAttrs, serializeAttrs, hd]
      · have hd : dropWs ('/' :: '>' :: tail) = '/' :: '>' :: tail :=
          dropWs_cons_not_ws '/' (by rfl) ('>' :: tail)
        simp [parseAttrs, serializeAttrs, hd]
  | cons a attrs' ih =>
    intro fuel tail sc hwf hf
    match fuel, hf with
    | fuel + 1, hf =>
      obtain ⟨n, v⟩ := a
      simp only [List.all_cons, Bool.and_eq_true] at hwf
      obtain ⟨hnv, hwf'⟩ := hwf
      obtain ⟨hn_ne, hn_chars⟩ := wfAttr_parts hnv
      obtain ⟨n0, n', rfl⟩ : ∃ n0 n', n = n0 :: n' := by
        match n, hn_ne with
        | n0 :: n', _ => exact ⟨n0, n', rfl⟩
      have h0 := hn_chars n0 (List.mem_cons_self n0 n')
      have h0p := attrNameChar_props h0.1
      -- the serialized input
      have hser : serializeAttrs ((n0 :: n', v) :: attrs')
          ++ (if sc then '/' :: '>' :: tail else '>' :: tail)
          = ' ' :: ((n0 :: n') ++ '=' :: ('"' :: (escapeAttr v
            ++ '"' :: (serializeAttrs attrs'
              ++ (if sc then '/' :: '>' :: tail else '>' :: tail))))) := by
        simp [serializeAttrs]
      rw [hser]
      have hdws : dropWs (' ' :: ((n0 :: n') ++ '=' :: ('"' :: (escapeAttr v
          ++ '"' :: (serializeAttrs attrs'
            ++ (if sc then '/' :: '>' :: tail else '>' :: tail))))))
          = (n0 :: n') ++ '=' :: ('"' :: (escapeAttr v
            ++ '"' :: (serializeAttrs attrs'
              ++ (if sc then '/' :: '>' :: tail else '>' :: tail)))) := by
        rw [dropWs_cons_ws ' ' (by rfl)]
        exact dropWs_cons_not_ws n0 h0p.1 _
      have htw := takeWhile_append_stop isAttrNameChar (n0 :: n') '='
        ('"' :: (escapeAttr v ++ '"' :: (serializeAttrs attrs'
          ++ (if sc then '/' :: '>' :: tail else '>' :: tail))))
        (fun c hc => (hn_chars c hc).1) (by rfl)
      rw [parseAttrs, hdws]
      simp only [List.cons_append] at htw ⊢
      simp only [h0p.2.2.1, h0p.2.2.2, Bool.false_eq_true, if_false]
      rw [htw.1, htw.2]
      rw [if_neg (List.cons_ne_nil n0 n')]
      have hmap : (n0 :: n').map toLowerA = n0 :: n' :=
        map_toLowerA_id (fun c hc => (hn_chars c hc).2)
      rw [hmap]
      rw [dropWs_cons_not_ws '=' (by rfl) _]
      dsimp only
      simp only [beq_self_eq_true, if_true]
      rw [dropWs_cons_not_ws '"' (by rfl) _]
      dsimp only
      simp only [beq_self_eq_true, if_true]
      have htw2 := takeWhile_append_stop (fun e => e != '"') (escapeAttr v) '"'
        (serializeAttrs attrs' ++ (if sc then '/' :: '>' :: tail else '>' :: tail))
        (fun c hc => by simp [escapeAttr_ne_quot v c hc]) (by simp)
      rw [htw2.1, htw2.2]
      simp only [List.drop_succ_cons, List.drop_zero]
      rw [unescape_escapeAttr]
      have hrec := ih fuel tail sc hwf' (by simpa using Nat.lt_of_succ_lt_succ hf)
      rw [hrec]

/-! Tag-name scanning. -/

theorem wfName_parts {t : Str} (h : wfName t = true) :
    (∃ c0 t', t = c0 :: t' ∧ isAlphaA c0 = true)
      ∧ ∀ c ∈ t, isNameBodyChar c = true ∧ toLowerA c = c := by
  simp only [wfName, Bool.and_eq_true, List.all_eq_true] at h
  obtain ⟨⟨hne, hhead⟩, hall⟩ := h
  constructor
  · match t, hne with
    | c0 :: t', _ =>
      refine ⟨c0, t', rfl, ?_⟩
      simpa using hhead
  · intro c hc
    have := hall c hc
    simp only [Bool.and_eq_true, beq_iff_eq] at this
    exact this

theorem isAlphaA_ne_slash {c : Char} (h : isAlphaA c = true) : (c == '/') = false := by
  apply char_beq_false
  have : ('/' : Char).toNat = 47 := rfl
  simp [isAlphaA, isUpperA] at h
  omega

theorem takeName_append {t : Str} (d : Char) (u : Str) (hw : wfName t = true)
    (hd : isNameBodyChar d = false) : takeName (t ++ d :: u) = (t, d :: u) := by
  have hparts := wfName_parts hw
  have htw := takeWhile_append_stop isNameBodyChar t d u
    (fun c hc => (hparts.2 c hc).1) hd
  have hmap : t.map toLowerA = t := map_toLowerA_id (fun c hc => (hparts.2 c hc).2)
  simp [takeName, htw.1, htw.2, hmap]

/-! Shape facts about serialized nodes. -/

theorem serializeAttrs_length_ge (attrs : List (Str × Str)) :
    attrs.length ≤ (serializeAttrs attrs).length := by
  induction attrs with
  | nil => simp [serializeAttrs]
  | cons a rest ih =>
    obtain ⟨n, v⟩ := a
    simp only [serializeAttrs, List.length_cons, List.length_append]
    omega

/-- The character right after a serialized tag name never continues the
name: a space when attributes follow, else the closing `>` or `/`. -/
theorem serializeAttrs_head (attrs : List (Str × Str)) (d0 : Char) (X : Str)
    (h0 : isNameBodyChar d0 = false) :
    ∃ d u, serializeAttrs attrs ++ d0 :: X = d :: u ∧ isNameBodyChar d = false := by
  cases attrs with
  | nil => exact ⟨d0, X, rfl, h0⟩
  | cons a rest =>
    obtain ⟨n, v⟩ := a
    refine ⟨' ', (n ++ '=' :: '"' :: (escapeAttr v ++ '"' :: serializeAttrs rest)) ++ d0 :: X,
      ?_, by rfl⟩
    simp [serializeAttrs]

/-- A well-formed node sequence serializes to either nothing (empty
sequence) or something that starts a tag (element head) or a text run;
what matters for the tokenizer: after a text node, the rest of the
serialization can never continue the text run. -/
theorem serializeNodes_headOk {ns : List Node} (rest : Str)
    (hhd : ns = [] ∨ ∃ t attrs cs ns', ns = Node.elem t attrs cs :: ns' ∧ wfName t = true)
    (hrest : rest = [] ∨ tagStartAt rest = true) :
    serializeNodes ns ++ rest = [] ∨ tagStartAt (serializeNodes ns ++ rest) = true := by
  rcases hhd with h | ⟨t, attrs, cs, ns', rfl, hw⟩
  · subst h
    simpa [serializeNodes] using hrest
  · right
    obtain ⟨⟨c0, t', rfl, hc0⟩, _⟩ := wfName_parts hw
    show tagStartAt (serializeNode (Node.elem (c0 :: t') attrs cs) ++ serializeNodes ns' ++ rest) = true
    by_cases hv : isVoidTag (c0 :: t') = true
    · simp [serializeNode, hv, tagStartAt, hc0]
    · simp only [serializeNode, Bool.not_eq_true] at hv ⊢
      simp [hv, tagStartAt, hc0]

/-! Destructuring well-formedness. -/

theorem wfNodes_cons {n : Node} {ns : List Node} (h : wfNodes (n :: ns) = true) :
    wfNode n = true ∧ wfNodes ns = true
      ∧ (∀ m, ns.head? = some m → ¬(isTextNode n = true ∧ isTextNode m = true)) := by
  cases ns with
  | nil =>
    refine ⟨h, rfl, ?_⟩
    intro m hm
    simp at hm
  | cons b rest =>
    have h' : (wfNode n && !(isTextNode n && isTextNode b) && wfNodes (b :: rest)) = true := h
    simp only [Bool.and_eq_true, Bool.not_eq_true'] at h'
    refine ⟨h'.1.1, h'.2, ?_⟩
    intro m hm
    simp only [List.head?_cons, Option.some.injEq] at hm
    subst hm
    intro ⟨h1, h2⟩
    rw [h1, h2] at h'
    simpa using h'.1.2

theorem wfNode_elem {t : Str} {attrs : List (Str × Str)} {cs : List Node}
    (h : wfNode (.elem t attrs cs) = true) :
    wfName t = true ∧ attrs.all wfAttr = true
      ∧ (isVoidTag t = true → cs = []) ∧ wfNodes cs = true := by
  have h' : (wfName t && attrs.all wfAttr && (!isVoidTag t || cs.isEmpty) && wfNodes cs) = true := h
  simp only [Bool.and_eq_true, Bool.or_eq_true, Bool.not_eq_true'] at h'
  refine ⟨h'.1.1.1, h'.1.1.2, ?_, h'.2⟩
  intro hv
  rcases h'.1.2 with hfalse | hempty
  · rw [hv] at hfalse; cases hfalse
  · exact List.isEmpty_iff.mp hempty

theorem char_beq_false_of_ne {a b : Char} (h : a ≠ b) : (a == b) = false := by
  cases hab : a == b
  · rfl
  · exact absurd (eq_of_beq hab) h

/-- Tokenizing a serialized well-formed node sequence yields exactly its
token stream, then tokenizes the remainder (which must be empty or a
tag start, so that text runs cannot bleed across the boundary). -/
theorem tokenize_ser_aux : ∀ (N : Nat) (ts : List Node), sizeOf ts ≤ N →
    ∀ (fuel : Nat) (rest : Str), wfNodes ts = true → (rest = [] ∨ tagStartAt rest = true) →
    tokenize (fuel + (serToksNodes ts).length) (serializeNodes ts ++ rest)
      = serToksNodes ts ++ tokenize fuel rest := by
  intro N
  induction N using Nat.strongRecOn with
  | _ N ih =>
    intro ts hsz fuel rest hwf hrest
    match ts with
    | [] => simp [serializeNodes, serToksNodes]
    | Node.text s :: ns =>
      have hw := wfNodes_cons hwf
      have hs_ne : s ≠ [] := by
        have hb : (!s.isEmpty) = true := hw.1
        simp only [Bool.not_eq_true'] at hb
        simpa [List.isEmpty_iff] using hb
      have hnsShape : ns = [] ∨ ∃ t attrs cs ns',
          ns = Node.elem t attrs cs :: ns' ∧ wfName t = true := by
        cases ns with
        | nil => exact Or.inl rfl
        | cons m ns' =>
          right
          have hmnotext := hw.2.2 m rfl
          cases m with
          | text s2 => exact absurd ⟨rfl, rfl⟩ hmnotext
          | elem t2 a2 c2 =>
            have hm := (wfNodes_cons hw.2.1).1
            exact ⟨t2, a2, c2, ns', rfl, (wfNode_elem hm).1⟩
      have hok := serializeNodes_headOk rest hnsShape hrest
      have htr := takeRawText_chunk (escapeText s) (serializeNodes ns ++ rest)
        (escapeText_ne_lt s) hok
      obtain ⟨e0, e', he⟩ : ∃ e0 e', escapeText s = e0 :: e' := by
        match hq : escapeText s, escapeText_ne_nil hs_ne with
        | e0 :: e', _ => exact ⟨e0, e', rfl⟩
      have he0 : (e0 == '<') = false :=
        char_beq_false_of_ne (escapeText_ne_lt s e0 (by rw [he]; exact List.mem_cons_self _ _))
      have hsz' : sizeOf ns < N := by
        have : sizeOf ns < sizeOf (Node.text s :: ns) := by
          simp only [List.cons.sizeOf_spec]
          have : 0 < sizeOf (Node.text s) := by
            cases (Node.text s) <;> simp_arith
          omega
        omega
      have ihns := ih (sizeOf ns) hsz' ns le_rfl fuel rest hw.2.1 hrest
      have hfu : fuel + (serToksNodes (Node.text s :: ns)).length
          = (fuel + (serToksNodes ns).length) + 1 := by
        simp only [serToksNodes, serToksNode, List.length_append, List.length_cons,
          List.length_nil]
        omega
      rw [hfu]
      have hser : serializeNodes (Node.text s :: ns) ++ rest
          = e0 :: (e' ++ (serializeNodes ns ++ rest)) := by
        show (serializeNode (Node.text s) ++ serializeNodes ns) ++ rest = _
        simp [serializeNode, he, List.append_assoc]
      rw [hser]
      rw [tokenize.eq_def]
      simp only [he0, Bool.false_eq_true, if_false]
      have htr' : takeRawText (e0 :: (e' ++ (serializeNodes ns ++ rest)))
          = (escapeText s, serializeNodes ns ++ rest) := by
        rw [← List.cons_append, ← he]
        exact htr
      rw [htr']
      simp only [unescape_escapeText]
      rw [ihns]
      simp [serToksNodes, serToksNode]
    | Node.elem t attrs cs :: ns =>
      have hw := wfNodes_cons hwf
      have he := wfNode_elem hw.1
      obtain ⟨⟨t0, t', ht, ht0⟩, _⟩ := wfName_parts he.1
      have ht0slash : (t0 == '/') = false := isAlphaA_ne_slash ht0
      have hsz_ns : sizeOf ns < N := by
        have : sizeOf ns < sizeOf (Node.elem t attrs cs :: ns) := by
          simp only [List.cons.sizeOf_spec]
          have : 0 < sizeOf (Node.elem t attrs cs) := by
            cases (Node.elem t attrs cs) <;> simp_arith
          omega
        omega
      have hsz_cs : sizeOf cs < N := by
        have : sizeOf cs < sizeOf (Node.elem t attrs cs :: ns) := by
          simp only [List.cons.sizeOf_spec, Node.elem.sizeOf_spec]
          omega
        omega
      by_cases hv : isVoidTag t = true
      · -- void element: one self-closed open token, no children
        have hcs : cs = [] := he.2.2.1 hv
        subst hcs
        have hfu : fuel + (serToksNodes (Node.elem t attrs [] :: ns)).length
            = (fuel + (serToksNodes ns).length) + 1 := by
          simp only [serToksNodes, serToksNode, hv, if_true, List.length_append,
            List.length_cons, List.length_nil]
          omega
        rw [hfu]
        obtain ⟨d, u, hdu, hd⟩ := serializeAttrs_head attrs '/'
          ('>' :: (serializeNodes ns ++ rest)) (by rfl)
        have hser : serializeNodes (Node.elem t attrs [] :: ns) ++ rest
            = '<' :: (t ++ (d :: u)) := by
          show (serializeNode (Node.elem t attrs []) ++ serializeNodes ns) ++ rest = _
          rw [serializeNode, if_pos hv, ← hdu]
          simp [List.append_assoc]
        rw [hser]
        rw [tokenize.eq_def]
        have hcons : t ++ (d :: u) = t0 :: (t' ++ (d :: u)) := by rw [ht]; rfl
        simp only [hcons]
        simp only [beq_self_eq_true, if_true, ht0slash, Bool.false_eq_true, if_false, ht0]
        rw [← hcons]
        have htn : takeName (t ++ (d :: u)) = (t, d :: u) := takeName_append d u he.1 hd
        rw [htn]
        have hpa := parseAttrs_ser attrs ((d :: u).length + 1) (serializeNodes ns ++ rest)
          true he.2.1 (by
            have h1 := serializeAttrs_length_ge attrs
            have h2 : (serializeAttrs attrs).length ≤ (d :: u).length := by
              rw [← hdu]
              simp
            omega)
        simp only [if_true] at hpa
        rw [hdu] at hpa
        rw [hpa]
        have ihns := ih (sizeOf ns) hsz_ns ns le_rfl fuel rest hw.2.1 hrest
        rw [ihns]
        simp [serToksNodes, serToksNode, hv]
      · -- ordinary element: open token, children, close token
        have hwcs := he.2.2.2
        have hL : (serToksNodes (Node.elem t attrs cs :: ns)).length
            = 1 + ((serToksNodes cs).length + 1) + (serToksNodes ns).length := by
          simp only [serToksNodes, serToksNode, hv, Bool.false_eq_true, if_false,
            List.length_append, List.length_cons, List.length_nil]
          omega
        obtain ⟨d, u, hdu, hd⟩ := serializeAttrs_head attrs '>'
          (serializeNodes cs ++ ('<' :: '/' :: (t ++ '>' :: (serializeNodes ns ++ rest))))
          (by rfl)
        have hser : serializeNodes (Node.elem t attrs cs :: ns) ++ rest
            = '<' :: (t ++ (d :: u)) := by
          show (serializeNode (Node.elem t attrs cs) ++ serializeNodes ns) ++ rest = _
          rw [serializeNode, if_neg (by simp [hv]), ← hdu]
          simp [List.append_assoc]
        rw [hser, hL]
        have hfu : fuel + (1 + ((serToksNodes cs).length + 1) + (serToksNodes ns).length)
            = (((fuel + (serToksNodes ns).length) + 1) + (serToksNodes cs).length) + 1 := by
          omega
        rw [hfu]
        rw [tokenize.eq_def]
        have hcons : t ++ (d :: u) = t0 :: (t' ++ (d :: u)) := by rw [ht]; rfl
        simp only [hcons]
        simp only [beq_self_eq_true, if_true, ht0slash, Bool.false_eq_true, if_false, ht0]
        rw [← hcons]
        have htn : takeName (t ++ (d :: u)) = (t, d :: u) := takeName_append d u he.1 hd
        rw [htn]
        have hpa := parseAttrs_ser attrs ((d :: u).length + 1)
          (serializeNodes cs ++ ('<' :: '/' :: (t ++ '>' :: (serializeNodes ns ++ rest))))
          false he.2.1 (by
            have h1 := serializeAttrs_length_ge attrs
            have h2 : (serializeAttrs attrs).length ≤ (d :: u).length := by
              rw [← hdu]
              simp
            omega)
        simp only [if_false, Bool.false_eq_true] at hpa
        rw [hdu] at hpa
        rw [hpa]
        have hclose : ('<' :: '/' :: (t ++ '>' :: (serializeNodes ns ++ rest))) = []
            ∨ tagStartAt ('<' :: '/' :: (t ++ '>' :: (serializeNodes ns ++ rest))) = true := by
          right
          rfl
        have ihcs := ih (sizeOf cs) hsz_cs cs le_rfl
          ((fuel + (serToksNodes ns).length) + 1)
          ('<' :: '/' :: (t ++ '>' :: (serializeNodes ns ++ rest))) hwcs hclose
        rw [ihcs]
        -- the close tag step
        have hstep : tokenize (((fuel + (serToksNodes ns).length)) + 1)
            ('<' :: '/' :: (t ++ '>' :: (serializeNodes ns ++ rest)))
            = Tok.close t :: tokenize (fuel + (serToksNodes ns).length)
                (serializeNodes ns ++ rest) := by
          rw [tokenize.eq_def]
          simp only [beq_self_eq_true, if_true]
          have htn2 : takeName (t ++ '>' :: (serializeNodes ns ++ rest))
              = (t, '>' :: (serializeNodes ns ++ rest)) :=
            takeName_append '>' (serializeNodes ns ++ rest) he.1 (by rfl)
          simp only [List.drop_succ_cons, List.drop_zero, htn2]
          simp only [List.dropWhile_cons, bne_self_eq_false, Bool.false_eq_true, if_false,
            List.drop_succ_cons, List.drop_zero]
        rw [hstep]
        have ihns := ih (sizeOf ns) hsz_ns ns le_rfl fuel rest hw.2.1 hrest
        rw [ihns]
        simp [serToksNodes, serToksNode, hv]

/-- Tokenizing `str(soup_nodes)` recovers the node token stream. -/
theorem tokenize_ser (ts : List Node) (fuel : Nat) (hwf : wfNodes ts = true) :
    tokenize (fuel + (serToksNodes ts).length) (serializeNodes ts)
      = serToksNodes ts ++ tokenize fuel [] := by
  have := tokenize_ser_aux (sizeOf ts) ts le_rfl fuel [] hwf (Or.inl rfl)
  simpa using this

/-! The tree builder on serialized token streams. -/

theorem appendChildMerge_eq_append (cur : List Node) (n : Node)
    (h : ∀ a b, cur.getLast? = some (Node.text a) → n = Node.text b → False) :
    appendChildMerge cur n = cur ++ [n] := by
  cases n with
  | elem t attrs cs =>
    cases hl : cur.getLast? with
    | none => simp [appendChildMerge, hl]
    | some m => cases m <;> simp [appendChildMerge, hl]
  | text b =>
    cases hl : cur.getLast? with
    | none => simp [appendChildMerge, hl]
    | some m =>
      cases m with
      | elem t2 a2 c2 => simp [appendChildMerge, hl]
      | text a => exact (h a b hl rfl).elim

theorem pushNode_stApp {st : List Frame} {done : List Node} {n : Node}
    (h : ∀ a b, (topChildren st done).getLast? = some (Node.text a)
      → n = Node.text b → False) :
    pushNode st done n = stApp st done [n] := by
  cases st with
  | nil =>
    show ([], appendChildMerge done n) = ([], done ++ [n])
    rw [appendChildMerge_eq_append done n (fun a b hl hn => h a b hl hn)]
  | cons f r =>
    show ({ f with children := appendChildMerge f.children n } :: r, done) = _
    rw [appendChildMerge_eq_append f.children n (fun a b hl hn => h a b hl hn)]
    rfl

theorem stApp_nil (st : List Frame) (done : List Node) : stApp st done [] = (st, done) := by
  cases st with
  | nil => simp [stApp]
  | cons f r => simp [stApp]

theorem stApp_append (st : List Frame) (done : List Node) (xs ys : List Node) :
    stApp st done (xs ++ ys)
      = stApp (stApp st done xs).1 (stApp st done xs).2 ys := by
  cases st with
  | nil => simp [stApp]
  | cons f r => simp [stApp]

theorem topChildren_stApp (st : List Frame) (done : List Node) (xs : List Node) :
    topChildren (stApp st done xs).1 (stApp st done xs).2
      = topChildren st done ++ xs := by
  cases st with
  | nil => simp [stApp, topChildren]
  | cons f r => simp [stApp, topChildren]

/-- Feeding the token stream of a serialized well-formed run into the
builder appends exactly that run at the current insertion point. -/
theorem build_serToks_aux : ∀ (N : Nat) (ts : List Node), sizeOf ts ≤ N →
    ∀ (toks : List Tok) (st : List Frame) (done : List Node),
    wfNodes ts = true → seamOk st done ts →
    buildToks (serToksNodes ts ++ toks) st done
      = buildToks toks (stApp st done ts).1 (stApp st done ts).2 := by
  intro N
  induction N using Nat.strongRecOn with
  | _ N ih =>
    intro ts hsz toks st done hwf hseam
    match ts with
    | [] => simp [serToksNodes, stApp_nil]
    | Node.text s :: ns =>
      have hw := wfNodes_cons hwf
      have hsz' : sizeOf ns < N := by
        have : sizeOf ns < sizeOf (Node.text s :: ns) := by
          simp only [List.cons.sizeOf_spec]
          have : 0 < sizeOf (Node.text s) := by
            cases (Node.text s) <;> simp_arith
          omega
        omega
      have hpush : pushNode st done (Node.text s) = stApp st done [Node.text s] :=
        pushNode_stApp (fun a b hl hn => hseam a b hl (by rw [hn]; rfl))
      have hstep : buildToks (serToksNodes (Node.text s :: ns) ++ toks) st done
          = buildToks (serToksNodes ns ++ toks)
              (stApp st done [Node.text s]).1 (stApp st done [Node.text s]).2 := by
        show buildToks (Tok.text s :: (serToksNodes ns ++ toks)) st done = _
        rw [buildToks, hpush]
      rw [hstep]
      have hseam' : seamOk (stApp st done [Node.text s]).1
          (stApp st done [Node.text s]).2 ns := by
        intro a b hl hh
        rw [topChildren_stApp] at hl
        simp only [List.getLast?_append, List.getLast?_singleton] at hl
        cases hl
        cases ns with
        | nil => simp at hh
        | cons m ns' =>
          simp only [List.head?_cons, Option.some.injEq] at hh
          exact (wfNodes_cons hwf).2.2 m rfl ⟨rfl, by rw [hh]; rfl⟩
      rw [ih (sizeOf ns) hsz' ns le_rfl toks _ _ hw.2.1 hseam']
      rw [← stApp_append]
      rfl
    | Node.elem t attrs cs :: ns =>
      have hw := wfNodes_cons hwf
      have he := wfNode_elem hw.1
      have hsz_ns : sizeOf ns < N := by
        have : sizeOf ns < sizeOf (Node.elem t attrs cs :: ns) := by
          simp only [List.cons.sizeOf_spec]
          have : 0 < sizeOf (Node.elem t attrs cs) := by
            cases (Node.elem t attrs cs) <;> simp_arith
          omega
        omega
      have hsz_cs : sizeOf cs < N := by
        have : sizeOf cs < sizeOf (Node.elem t attrs cs :: ns) := by
          simp only [List.cons.sizeOf_spec, Node.elem.sizeOf_spec]
          omega
        omega
      have hseam' : seamOk st done ns → True := fun _ => trivial
      have hpushE : ∀ (st2 : List Frame) (done2 : List Node),
          pushNode st2 done2 (Node.elem t attrs cs) = stApp st2 done2 [Node.elem t attrs cs] :=
        fun st2 done2 => pushNode_stApp (fun a b _ hn => by cases hn)
      have hnsSeam : seamOk (stApp st done [Node.elem t attrs cs]).1
          (stApp st done [Node.elem t attrs cs]).2 ns := by
        intro a b hl _
        rw [topChildren_stApp] at hl
        simp only [List.getLast?_append, List.getLast?_singleton] at hl
        cases hl
      by_cases hv : isVoidTag t = true
      · have hcs : cs = [] := he.2.2.1 hv
        subst hcs
        have hserTok : serToksNodes (Node.elem t attrs [] :: ns)
            = Tok.opened t attrs true :: serToksNodes ns := by
          simp [serToksNodes, serToksNode, hv]
        rw [hserTok, List.cons_append, buildToks]
        simp only [Bool.or_true, eq_self_iff_true, if_true]
        rw [hpushE st done]
        rw [ih (sizeOf ns) hsz_ns ns le_rfl toks _ _ hw.2.1 hnsSeam]
        rw [← stApp_append]
        rfl
      · have hserTok : serToksNodes (Node.elem t attrs cs :: ns)
            = Tok.opened t attrs false
              :: (serToksNodes cs ++ (Tok.close t :: (serToksNodes ns))) := by
          simp [serToksNodes, serToksNode, hv]
        rw [hserTok, List.cons_append, buildToks]
        simp only [hv, Bool.or_false, Bool.false_eq_true, if_false]
        have hassoc : (serToksNodes cs ++ (Tok.close t :: serToksNodes ns)) ++ toks
            = serToksNodes cs ++ (Tok.close t :: (serToksNodes ns ++ toks)) := by
          simp [List.append_assoc]
        rw [hassoc]
        have hcsSeam : seamOk ({ tag := t, attrs := attrs, children := [] } :: st) done cs := by
          intro a b hl _
          simp [topChildren] at hl
        rw [ih (sizeOf cs) hsz_cs cs le_rfl (Tok.close t :: (serToksNodes ns ++ toks))
          ({ tag := t, attrs := attrs, children := [] } :: st) done he.2.2.2 hcsSeam]
        have hstApp : stApp ({ tag := t, attrs := attrs, children := [] } :: st) done cs
            = ({ tag := t, attrs := attrs, children := cs } :: st, done) := by
          simp [stApp]
        rw [hstApp]
        rw [buildToks]
        have hopen : hasOpenTag ({ tag := t, attrs := attrs, children := cs } :: st) t = true := by
          simp [hasOpenTag]
        rw [if_pos hopen]
        have hclose : closeLoop t ({ tag := t, attrs := attrs, children := cs } :: st) done none
            = pushNode st done (Node.elem t attrs cs) := by
          rw [closeLoop]
          simp
        rw [hclose, hpushE st done]
        rw [ih (sizeOf ns) hsz_ns ns le_rfl toks _ _ hw.2.1 hnsSeam]
        rw [← stApp_append]
        rfl

theorem tokenize_nil (fuel : Nat) : tokenize fuel [] = [] := by
  cases fuel <;> rfl

theorem serToksNodes_length_le : ∀ (N : Nat) (ts : List Node), sizeOf ts ≤ N →
    wfNodes ts = true → (serToksNodes ts).length ≤ (serializeNodes ts).length := by
  intro N
  induction N using Nat.strongRecOn with
  | _ N ih =>
    intro ts hsz hwf
    match ts with
    | [] => simp [serToksNodes, serializeNodes]
    | Node.text s :: ns =>
      have hw := wfNodes_cons hwf
      have hs_ne : s ≠ [] := by
        have hb : (!s.isEmpty) = true := hw.1
        simp only [Bool.not_eq_true'] at hb
        simpa [List.isEmpty_iff] using hb
      have hsz' : sizeOf ns < N := by
        have : sizeOf ns < sizeOf (Node.text s :: ns) := by
          simp only [List.cons.sizeOf_spec]
          have : 0 < sizeOf (Node.text s) := by
            cases (Node.text s) <;> simp_arith
          omega
        omega
      have ihns := ih (sizeOf ns) hsz' ns le_rfl hw.2.1
      have h1 : 1 ≤ (escapeText s).length := by
        match s, hs_ne with
        | c :: cs, _ =>
          show 1 ≤ (escTextChar c ++ escapeText cs).length
          have := escTextChar_ne_nil c
          simp only [List.length_append]
          cases hq : escTextChar c with
          | nil => exact absurd hq this
          | cons d ds => simp [hq]; omega
      show (Tok.text s :: serToksNodes ns).length
          ≤ (escapeText s ++ serializeNodes ns).length
      simp only [List.length_cons, List.length_append]
      omega
    | Node.elem t attrs cs :: ns =>
      have hw := wfNodes_cons hwf
      have he := wfNode_elem hw.1
      have hsz_ns : sizeOf ns < N := by
        have : sizeOf ns < sizeOf (Node.elem t attrs cs :: ns) := by
          simp only [List.cons.sizeOf_spec]
          have : 0 < sizeOf (Node.elem t attrs cs) := by
            cases (Node.elem t attrs cs) <;> simp_arith
          omega
        omega
      have hsz_cs : sizeOf cs < N := by
        have : sizeOf cs < sizeOf (Node.elem t attrs cs :: ns) := by
          simp only [List.cons.sizeOf_spec, Node.elem.sizeOf_spec]
          omega
        omega
      have ihns := ih (sizeOf ns) hsz_ns ns le_rfl hw.2.1
      have ihcs := ih (sizeOf cs) hsz_cs cs le_rfl he.2.2.2
      by_cases hv : isVoidTag t = true
      · have hcs : cs = [] := he.2.2.1 hv
        subst hcs
        show ((serToksNode (Node.elem t attrs []) ++ serToksNodes ns)).length
            ≤ ((serializeNode (Node.elem t attrs []) ++ serializeNodes ns)).length
        simp [serToksNode, serializeNode, hv]
        omega
      · show ((serToksNode (Node.elem t attrs cs) ++ serToksNodes ns)).length
            ≤ ((serializeNode (Node.elem t attrs cs) ++ serializeNodes ns)).length
        simp [serToksNode, serializeNode, hv]
        omega

/-- `BeautifulSoup(str(soup), "html.parser")` rebuilds a well-formed
tree exactly: serialization followed by parsing is the identity. -/
theorem parse_serializeNodes {ts : List Node} (hwf : wfNodes ts = true) :
    parse (serializeNodes ts) = ts := by
  show buildToks (tokenize ((serializeNodes ts).length + 1) (serializeNodes ts)) [] [] = ts
  have hle := serToksNodes_length_le (sizeOf ts) ts le_rfl hwf
  have heq : (serializeNodes ts).length + 1
      = ((serializeNodes ts).length + 1 - (serToksNodes ts).length)
        + (serToksNodes ts).length := by omega
  rw [heq, tokenize_ser ts _ hwf, tokenize_nil]
  have hseam : seamOk [] [] ts := by
    intro a b hl _
    simp [topChildren] at hl
  have hb := build_serToks_aux (sizeOf ts) ts le_rfl [] [] [] hwf hseam
  simpa [stApp, buildToks, finishFrames] using hb

theorem parse_serializeNode {n : Node} (h : wfNode n = true) :
    parse (serializeNode n) = [n] := by
  have hwf : wfNodes [n] = true := h
  have := parse_serializeNodes hwf
  simpa [serializeNodes] using this

/-! A reusable induction principle for node lists (recursing both into
children and along the list). -/

theorem nodeList_induction (P : List Node → Prop)
    (hnil : P [])
    (hcons : ∀ n ns, P (childrenOf n) → P ns → P (n :: ns)) : ∀ ts, P ts := by
  have key : ∀ (N : Nat) (ts : List Node), sizeOf ts ≤ N → P ts := by
    intro N
    induction N using Nat.strongRecOn with
    | _ N ih =>
      intro ts hsz
      match ts with
      | [] => exact hnil
      | n :: ns =>
        have hns : sizeOf ns < sizeOf (n :: ns) := by
          simp only [List.cons.sizeOf_spec]
          have : 0 < sizeOf n := by cases n <;> simp_arith
          omega
        have hch : sizeOf (childrenOf n) < sizeOf (n :: ns) := by
          cases n with
          | text s => simp [childrenOf, List.cons.sizeOf_spec]; omega
          | elem t attrs cs =>
            simp only [childrenOf, List.cons.sizeOf_spec, Node.elem.sizeOf_spec]
            omega
        exact hcons n ns
          (ih (sizeOf (childrenOf n)) (by omega) _ le_rfl)
          (ih (sizeOf ns) (by omega) _ le_rfl)
  exact fun ts => key (sizeOf ts) ts le_rfl

/-- `wfNodes` as an all-nodes condition plus a no-adjacent-text-runs
chain. -/
theorem wfNodes_iff (ns : List Node) : wfNodes ns = true ↔
    (∀ n ∈ ns, wfNode n = true)
      ∧ List.Chain' (fun x y => ¬(isTextNode x = true ∧ isTextNode y = true)) ns := by
  induction ns with
  | nil => simp [wfNodes]
  | cons a rest ih =>
    cases rest with
    | nil =>
      show wfNode a = true ↔ _
      simp
    | cons b rest' =>
      have hstep : wfNodes (a :: b :: rest') =
          (wfNode a && !(isTextNode a && isTextNode b) && wfNodes (b :: rest')) := rfl
      rw [hstep]
      constructor
      · intro h
        simp only [Bool.and_eq_true, Bool.not_eq_true'] at h
        obtain ⟨⟨h1, h2⟩, h3⟩ := h
        obtain ⟨h4, h5⟩ := ih.mp h3
        refine ⟨?_, ?_⟩
        · intro n hn
          rcases List.mem_cons.mp hn with rfl | hn'
          · exact h1
          · exact h4 n hn'
        · refine List.chain'_cons.mpr ⟨?_, h5⟩
          intro ⟨ha, hb⟩
          rw [ha, hb] at h2
          simp at h2
      · intro ⟨h4, h5⟩
        obtain ⟨hrel, h5'⟩ := List.chain'_cons.mp h5
        have h3 : wfNodes (b :: rest') = true :=
          ih.mpr ⟨fun n hn => h4 n (List.mem_cons_of_mem a hn), h5'⟩
        simp only [Bool.and_eq_true, Bool.not_eq_true']
        refine ⟨⟨h4 a (List.mem_cons_self a _), ?_⟩, h3⟩
        cases hta : isTextNode a
        · rfl
        · cases htb : isTextNode b
          · rfl
          · exact absurd ⟨hta, htb⟩ hrel

/-! Tokenizer output well-formedness. -/

theorem unescapeHtml_cons_ne_nil (c : Char) (r : Str) : unescapeHtml (c :: r) ≠ [] := by
  show unescapeLoop (c :: r).length (c :: r) ≠ []
  rw [List.length_cons]
  rw [unescapeLoop]
  by_cases hc : (c == '&') = true
  · rw [if_pos hc]
    cases entityHead r <;> simp
  · rw [if_neg hc]
    simp

theorem takeRawText_ne_nil {cs : Str} (h : tagStartAt cs = false) (hne : cs ≠ []) :
    (takeRawText cs).1 ≠ [] := by
  match cs, hne with
  | c :: rest, _ =>
    rw [takeRawText]
    simp [h]

theorem takeName_wf {cs : Str} {d : Char} {rest : Str} (hcs : cs = d :: rest)
    (hd : isAlphaA d = true) : wfName (takeName cs).1 = true := by
  subst hcs
  have hdb : isNameBodyChar d = true := by simp [isNameBodyChar, hd]
  show wfName ((List.takeWhile isNameBodyChar (d :: rest)).map toLowerA) = true
  rw [List.takeWhile_cons, if_pos hdb]
  simp only [List.map_cons, wfName, Bool.and_eq_true, List.all_eq_true]
  refine ⟨⟨by simp, by simpa using isAlphaA_toLowerA hd⟩, ?_⟩
  intro c hc
  rcases List.mem_cons.mp hc with rfl | hc'
  · constructor
    · exact isNameBody_toLowerA hdb
    · simp [toLowerA_fix]
  · obtain ⟨c0, hc0, rfl⟩ := List.mem_map.mp hc'
    have hbody : isNameBodyChar c0 = true := List.mem_takeWhile_imp hc0
    constructor
    · exact isNameBody_toLowerA hbody
    · simp [toLowerA_fix]

theorem parseAttrs_wf : ∀ (fuel : Nat) (cs : Str),
    (parseAttrs fuel cs).1.all wfAttr = true := by
  intro fuel
  induction fuel with
  | zero => intro cs; rfl
  | succ fuel ih =>
    intro cs
    rw [parseAttrs]
    cases hd : dropWs cs with
    | nil => rfl
    | cons c rest =>
      by_cases h1 : (c == '>') = true
      · simp [h1]
      · simp only [h1, Bool.false_eq_true, if_false]
        by_cases h2 : (c == '/') = true
        · simp only [h2, if_true]
          cases rest with
          | nil => exact ih []
          | cons r1 rest2 =>
            by_cases h3 : (r1 == '>') = true
            · simp [h3]
            · simp only [h3, Bool.false_eq_true, if_false]
              exact ih (r1 :: rest2)
        · simp only [h2, Bool.false_eq_true, if_false]
          by_cases h4 : (c :: rest).takeWhile isAttrNameChar = []
          · simp only [h4, if_pos]
            exact ih rest
          · simp only [if_neg h4]
            have hname : ∀ (vv : Str),
                wfAttr (((c :: rest).takeWhile isAttrNameChar).map toLowerA, vv) = true := by
              intro vv
              simp only [wfAttr, Bool.and_eq_true, List.all_eq_true]
              constructor
              · cases hq : (c :: rest).takeWhile isAttrNameChar with
                | nil => exact absurd hq h4
                | cons x xs => simp [hq]
              · intro x hx
                obtain ⟨c0, hc0, rfl⟩ := List.mem_map.mp hx
                have hch : isAttrNameChar c0 = true := List.mem_takeWhile_imp hc0
                exact ⟨isAttrNameChar_toLowerA hch, by simp [toLowerA_fix]⟩
            cases hd2 : dropWs ((c :: rest).dropWhile isAttrNameChar) with
            | nil =>
              simp only [List.all_cons, Bool.and_eq_true]
              exact ⟨hname [], ih []⟩
            | cons c2 cs3 =>
              by_cases h5 : (c2 == '=') = true
              · simp only [h5, if_true]
                cases hd3 : dropWs cs3 with
                | nil => simp [hname []]
                | cons d cs5 =>
                  by_cases h6 : (d == '"') = true
                  · simp only [h6, if_true, List.all_cons, Bool.and_eq_true]
                    exact ⟨hname _, ih _⟩
                  · simp only [h6, Bool.false_eq_true, if_false]
                    by_cases h7 : (d == quoteCh) = true
                    · simp only [h7, if_true, List.all_cons, Bool.and_eq_true]
                      exact ⟨hname _, ih _⟩
                    · simp only [h7, Bool.false_eq_true, if_false, List.all_cons,
                        Bool.and_eq_true]
                      exact ⟨hname _, ih _⟩
              · simp only [h5, Bool.false_eq_true, if_false, List.all_cons, Bool.and_eq_true]
                exact ⟨hname [], ih _⟩

theorem tokenize_wf : ∀ (fuel : Nat) (cs : Str), (tokenize fuel cs).all wfTok = true := by
  intro fuel
  induction fuel with
  | zero => intro cs; rfl
  | succ fuel ih =>
    intro cs
    rw [tokenize.eq_def]
    cases cs with
    | nil => rfl
    | cons c rest =>
      by_cases h1 : (c == '<') = true
      · simp only [h1, if_true]
        cases rest with
        | nil => rfl
        | cons d tail =>
          by_cases h2 : (d == '/') = true
          · simp only [h2, if_true, List.all_cons, Bool.and_eq_true]
            exact ⟨rfl, ih _⟩
          · simp only [h2, Bool.false_eq_true, if_false]
            by_cases h3 : isAlphaA d = true
            · simp only [h3, if_true, List.all_cons, Bool.and_eq_true]
              refine ⟨?_, ih _⟩
              show (wfName (takeName (d :: tail)).1 && _) = true
              simp only [Bool.and_eq_true]
              exact ⟨takeName_wf rfl h3, parseAttrs_wf _ _⟩
            · simp only [h3, Bool.false_eq_true, if_false, List.all_cons, Bool.and_eq_true]
              have hts : tagStartAt ('<' :: d :: tail) = false := by
                simp [tagStartAt, h2, h3]
              have hc' : c = '<' := eq_of_beq h1
              subst hc'
              refine ⟨?_, ih _⟩
              show (!(unescapeHtml (takeRawText ('<' :: d :: tail)).1).isEmpty) = true
              have h4 := takeRawText_ne_nil hts (by simp)
              match hq : (takeRawText ('<' :: d :: tail)).1, h4 with
              | e0 :: e', _ =>
                simpa [List.isEmpty_iff] using unescapeHtml_cons_ne_nil e0 e'
      · simp only [h1, Bool.false_eq_true, if_false, List.all_cons, Bool.and_eq_true]
        have hts : tagStartAt (c :: rest) = false := by
          cases rest with
          | nil => rfl
          | cons d tail => simp [tagStartAt, h1]
        refine ⟨?_, ih _⟩
        show (!(unescapeHtml (takeRawText (c :: rest)).1).isEmpty) = true
        have h4 := takeRawText_ne_nil hts (by simp)
        match hq : (takeRawText (c :: rest)).1, h4 with
        | e0 :: e', _ =>
          simpa [List.isEmpty_iff] using unescapeHtml_cons_ne_nil e0 e'

/-! Builder output well-formedness. -/

theorem wfNode_text_ne_nil {s : Str} (h : wfNode (Node.text s) = true) : s ≠ [] := by
  have hb : (!s.isEmpty) = true := h
  simp only [Bool.not_eq_true'] at hb
  simpa [List.isEmpty_iff] using hb

theorem appendChildMerge_wf {cur : List Node} {n : Node}
    (hc : wfNodes cur = true) (hn : wfNode n = true) :
    wfNodes (appendChildMerge cur n) = true := by
  have hrel : ∀ (x y : Node), isTextNode y = false
      → ¬(isTextNode x = true ∧ isTextNode y = true) := by
    intro x y hy ⟨_, h2⟩
    rw [hy] at h2
    cases h2
  cases n with
  | elem t attrs cs =>
    have happ : appendChildMerge cur (Node.elem t attrs cs) = cur ++ [Node.elem t attrs cs] := by
      cases hl : cur.getLast? with
      | none => simp [appendChildMerge, hl]
      | some m => cases m <;> simp [appendChildMerge, hl]
    rw [happ]
    obtain ⟨hall, hchain⟩ := (wfNodes_iff cur).mp hc
    refine (wfNodes_iff _).mpr ⟨?_, ?_⟩
    · intro m hm
      rcases List.mem_append.mp hm with h | h
      · exact hall m h
      · simp only [List.mem_singleton] at h
        subst h
        exact hn
    · refine List.chain'_append.mpr ⟨hchain, List.chain'_singleton _, ?_⟩
      intro x _ y hy
      simp only [List.head?_cons, Option.mem_def, Option.some.injEq] at hy
      subst hy
      exact hrel x _ rfl
  | text b =>
    cases hl : cur.getLast? with
    | none =>
      have hcur : cur = [] := List.getLast?_eq_none_iff.mp hl
      subst hcur
      show wfNodes ([] ++ [Node.text b]) = true
      simpa using hn
    | some m =>
      cases m with
      | elem t2 a2 c2 =>
        have happ : appendChildMerge cur (Node.text b) = cur ++ [Node.text b] := by
          simp [appendChildMerge, hl]
        rw [happ]
        obtain ⟨hall, hchain⟩ := (wfNodes_iff cur).mp hc
        refine (wfNodes_iff _).mpr ⟨?_, ?_⟩
        · intro m hm
          rcases List.mem_append.mp hm with h | h
          · exact hall m h
          · simp only [List.mem_singleton] at h
            subst h
            exact hn
        · refine List.chain'_append.mpr ⟨hchain, List.chain'_singleton _, ?_⟩
          intro x hx y hy
          simp only [List.head?_cons, Option.mem_def, Option.some.injEq] at hy
          subst hy
          rw [hl] at hx
          simp only [Option.mem_def, Option.some.injEq] at hx
          subst hx
          intro ⟨h1, _⟩
          cases h1
      | text a =>
        obtain ⟨l', rfl⟩ := List.getLast?_eq_some_iff.mp hl
        have happ : appendChildMerge (l' ++ [Node.text a]) (Node.text b)
            = l' ++ [Node.text (a ++ b)] := by
          simp [appendChildMerge]
        rw [happ]
        obtain ⟨hall, hchain⟩ := (wfNodes_iff _).mp hc
        obtain ⟨hch1, _, hbound⟩ := List.chain'_append.mp hchain
        refine (wfNodes_iff _).mpr ⟨?_, ?_⟩
        · intro m hm
          rcases List.mem_append.mp hm with h | h
          · exact hall m (List.mem_append.mpr (Or.inl h))
          · simp only [List.mem_singleton] at h
            subst h
            have ha : a ≠ [] := wfNode_text_ne_nil
              (hall (Node.text a) (List.mem_append.mpr (Or.inr (List.mem_singleton.mpr rfl))))
            show (!(a ++ b).isEmpty) = true
            simp [List.isEmpty_iff, ha]
        · refine List.chain'_append.mpr ⟨hch1, List.chain'_singleton _, ?_⟩
          intro x hx y hy
          simp only [List.head?_cons, Option.mem_def, Option.some.injEq] at hy
          subst hy
          have := hbound x hx (Node.text a) (by simp)
          intro ⟨h1, _⟩
          exact this ⟨h1, rfl⟩

theorem wfFrame_parts {f : Frame} (h : wfFrame f = true) :
    wfName f.tag = true ∧ isVoidTag f.tag = false ∧ f.attrs.all wfAttr = true
      ∧ wfNodes f.children = true := by
  simp only [wfFrame, Bool.and_eq_true, Bool.not_eq_true'] at h
  exact ⟨h.1.1.1, h.1.1.2, h.1.2, h.2⟩

theorem wfNode_elem_of_frame {t : Str} {attrs : List (Str × Str)} {cs : List Node}
    (h1 : wfName t = true) (h2 : isVoidTag t = false) (h3 : attrs.all wfAttr = true)
    (h4 : wfNodes cs = true) : wfNode (Node.elem t attrs cs) = true := by
  show (wfName t && attrs.all wfAttr && (!isVoidTag t || cs.isEmpty) && wfNodes cs) = true
  simp [h1, h2, h3, h4]

theorem pushNode_wf {st : List Frame} {done : List Node} {n : Node}
    (hst : st.all wfFrame = true) (hdone : wfNodes done = true) (hn : wfNode n = true) :
    (pushNode st done n).1.all wfFrame = true ∧ wfNodes (pushNode st done n).2 = true := by
  cases st with
  | nil => exact ⟨rfl, appendChildMerge_wf hdone hn⟩
  | cons f r =>
    simp only [List.all_cons, Bool.and_eq_true] at hst
    constructor
    · show (({ f with children := appendChildMerge f.children n } :: r).all wfFrame) = true
      simp only [List.all_cons, Bool.and_eq_true]
      refine ⟨?_, hst.2⟩
      have hf := wfFrame_parts hst.1
      show (wfName f.tag && !isVoidTag f.tag && f.attrs.all wfAttr
        && wfNodes (appendChildMerge f.children n)) = true
      simp [hf.1, hf.2.1, hf.2.2.1, appendChildMerge_wf hf.2.2.2 hn]
    · exact hdone

theorem closeLoop_wf (t : Str) : ∀ (st : List Frame) (done : List Node) (carry : Option Node),
    st.all wfFrame = true → wfNodes done = true →
    (∀ c, carry = some c → wfNode c = true) →
    (closeLoop t st done carry).1.all wfFrame = true
      ∧ wfNodes (closeLoop t st done carry).2 = true := by
  intro st
  induction st with
  | nil =>
    intro done carry _ hdone hcarry
    cases carry with
    | none => exact ⟨rfl, hdone⟩
    | some c => exact ⟨rfl, appendChildMerge_wf hdone (hcarry c rfl)⟩
  | cons f rest ih =>
    intro done carry hst hdone hcarry
    simp only [List.all_cons, Bool.and_eq_true] at hst
    have hf := wfFrame_parts hst.1
    cases carry with
    | none =>
      have helem : wfNode (Node.elem f.tag f.attrs f.children) = true :=
        wfNode_elem_of_frame hf.1 hf.2.1 hf.2.2.1 hf.2.2.2
      simp only [closeLoop]
      by_cases hq : f.tag = t
      · rw [if_pos hq]
        exact pushNode_wf hst.2 hdone helem
      · rw [if_neg hq]
        exact ih done (some _) hst.2 hdone (fun c hc => by
          cases hc
          exact helem)
    | some c0 =>
      have helem : wfNode (Node.elem f.tag f.attrs (appendChildMerge f.children c0)) = true :=
        wfNode_elem_of_frame hf.1 hf.2.1 hf.2.2.1
          (appendChildMerge_wf hf.2.2.2 (hcarry c0 rfl))
      simp only [closeLoop]
      by_cases hq : f.tag = t
      · rw [if_pos hq]
        exact pushNode_wf hst.2 hdone helem
      · rw [if_neg hq]
        exact ih done (some _) hst.2 hdone (fun c hc => by
          cases hc
          exact helem)

theorem finishFrames_wf : ∀ (st : List Frame) (done : List Node) (carry : Option Node),
    st.all wfFrame = true → wfNodes done = true →
    (∀ c, carry = some c → wfNode c = true) →
    wfNodes (finishFrames st done carry) = true := by
  intro st
  induction st with
  | nil =>
    intro done carry _ hdone hcarry
    cases carry with
    | none => exact hdone
    | some c => exact appendChildMerge_wf hdone (hcarry c rfl)
  | cons f rest ih =>
    intro done carry hst hdone hcarry
    simp only [List.all_cons, Bool.and_eq_true] at hst
    have hf := wfFrame_parts hst.1
    cases carry with
    | none =>
      have helem : wfNode (Node.elem f.tag f.attrs f.children) = true :=
        wfNode_elem_of_frame hf.1 hf.2.1 hf.2.2.1 hf.2.2.2
      simp only [finishFrames]
      exact ih done (some _) hst.2 hdone (fun c hc => by
        cases hc
        exact helem)
    | some c0 =>
      have helem : wfNode (Node.elem f.tag f.attrs (appendChildMerge f.children c0)) = true :=
        wfNode_elem_of_frame hf.1 hf.2.1 hf.2.2.1
          (appendChildMerge_wf hf.2.2.2 (hcarry c0 rfl))
      simp only [finishFrames]
      exact ih done (some _) hst.2 hdone (fun c hc => by
        cases hc
        exact helem)

theorem buildToks_wf : ∀ (toks : List Tok) (st : List Frame) (done : List Node),
    toks.all wfTok = true → st.all wfFrame = true → wfNodes done = true →
    wfNodes (buildToks toks st done) = true := by
  intro toks
  induction toks with
  | nil =>
    intro st done _ hst hdone
    exact finishFrames_wf st done none hst hdone (fun c hc => by cases hc)
  | cons tok toks ih =>
    intro st done htoks hst hdone
    simp only [List.all_cons, Bool.and_eq_true] at htoks
    cases tok with
    | text s =>
      simp only [buildToks]
      have hp := pushNode_wf hst hdone (show wfNode (Node.text s) = true from htoks.1)
      exact ih _ _ htoks.2 hp.1 hp.2
    | opened t attrs sc =>
      simp only [buildToks]
      have hw : (wfName t && attrs.all wfAttr) = true := htoks.1
      simp only [Bool.and_eq_true] at hw
      by_cases hv : (isVoidTag t || sc) = true
      · rw [if_pos hv]
        have hn : wfNode (Node.elem t attrs []) = true := by
          show (wfName t && attrs.all wfAttr && (!isVoidTag t || List.isEmpty [])
            && wfNodes []) = true
          simp only [hw.1, hw.2, Bool.and_true, Bool.true_and, Bool.or_true, List.isEmpty_nil]
          rfl
        have hp := pushNode_wf hst hdone hn
        exact ih _ _ htoks.2 hp.1 hp.2
      · rw [if_neg hv]
        refine ih _ _ htoks.2 ?_ hdone
        simp only [Bool.or_eq_true, not_or, Bool.not_eq_true] at hv
        simp only [List.all_cons, Bool.and_eq_true]
        refine ⟨?_, hst⟩
        show (wfName t && !isVoidTag t && attrs.all wfAttr && wfNodes []) = true
        simp only [hw.1, hw.2, hv.1, Bool.not_false, Bool.and_true, Bool.true_and]
        rfl
    | close t =>
      simp only [buildToks]
      by_cases hq : hasOpenTag st t = true
      · rw [if_pos hq]
        have hp := closeLoop_wf t st done none hst hdone (fun c hc => by cases hc)
        exact ih _ _ htoks.2 hp.1 hp.2
      · rw [if_neg hq]
        exact ih _ _ htoks.2 hst hdone

/-- Every parse result is a well-formed tree. -/
theorem wf_parse (s : Str) : wfNodes (parse s) = true :=
  buildToks_wf _ [] [] (tokenize_wf _ _) rfl rfl

/-! Python-dict lemmas (`d[k] = v` / `d.get(k)`). -/

theorem getAttr_dictInsert_self : ∀ (d : List (Str × Str)) (k v : Str),
    getAttr (dictInsert d k v) k = some v := by
  intro d k v
  induction d with
  | nil => simp [dictInsert, getAttr]
  | cons kv rest ih =>
    obtain ⟨k0, v0⟩ := kv
    by_cases h : k0 = k
    · simp [dictInsert, getAttr, h]
    · simp [dictInsert, getAttr, h, ih]

theorem getAttr_dictInsert_ne : ∀ (d : List (Str × Str)) (k v a : Str), k ≠ a →
    getAttr (dictInsert d k v) a = getAttr d a := by
  intro d k v a hka
  induction d with
  | nil => simp [dictInsert, getAttr, hka]
  | cons kv rest ih =>
    obtain ⟨k0, v0⟩ := kv
    by_cases h : k0 = k
    · subst h
      simp [dictInsert, getAttr, hka]
    · simp [dictInsert, getAttr, h, ih]

theorem dictInsert_idem : ∀ (d : List (Str × Str)) (k v : Str),
    dictInsert (dictInsert d k v) k v = dictInsert d k v := by
  intro d k v
  induction d with
  | nil => simp [dictInsert]
  | cons kv rest ih =>
    obtain ⟨k0, v0⟩ := kv
    by_cases h : k0 = k
    · simp [dictInsert, h]
    · simp [dictInsert, h, ih]

theorem dictInsert_fresh : ∀ (d : List (Str × Str)) (k v : Str),
    getAttr d k = none → dictInsert d k v = d ++ [(k, v)] := by
  intro d k v h
  induction d with
  | nil => simp [dictInsert]
  | cons kv rest ih =>
    obtain ⟨k0, v0⟩ := kv
    by_cases hk : k0 = k
    · simp [getAttr, hk] at h
    · simp only [getAttr, if_neg hk] at h
      simp [dictInsert, hk, ih h]

theorem dictInsert_all_wfAttr : ∀ (d : List (Str × Str)) (k v : Str),
    d.all wfAttr = true → wfAttr (k, v) = true → (dictInsert d k v).all wfAttr = true := by
  intro d k v hd hkv
  induction d with
  | nil => simpa [dictInsert]
  | cons kv0 rest ih =>
    obtain ⟨k0, v0⟩ := kv0
    simp only [List.all_cons, Bool.and_eq_true] at hd
    by_cases hk : k0 = k
    · subst hk
      have hins : dictInsert ((k0, v0) :: rest) k0 v = (k0, v) :: rest := by
        simp [dictInsert]
      rw [hins, List.all_cons, hkv, hd.2]
      rfl
    · simp only [dictInsert, if_neg hk, List.all_cons, Bool.and_eq_true]
      exact ⟨hd.1, ih hd.2⟩

theorem dictLookup_eq_getAttr : ∀ (d : List (Str × Str)) (k : Str),
    dictLookup d k = getAttr d k := by
  intro d k
  induction d with
  | nil => rfl
  | cons kv rest ih =>
    obtain ⟨k0, v0⟩ := kv
    by_cases h : k0 = k
    · simp [dictLookup, getAttr, h]
    · simp [dictLookup, getAttr, h, ih]

theorem optOr_of_isSome {o y : Option Str} (h : o.isSome = true) : o.or y = o := by
  cases o with
  | none => cases h
  | some v => rfl

theorem getLast?_cons_or (v : Str) (M : List Str) :
    (v :: M).getLast? = M.getLast?.or (some v) := by
  cases hM : M.getLast? with
  | none =>
    have : M = [] := List.getLast?_eq_none_iff.mp hM
    subst this
    rfl
  | some w =>
    obtain ⟨l', rfl⟩ := List.getLast?_eq_some_iff.mp hM
    show (v :: (l' ++ [w])).getLast? = (some w).or (some v)
    rw [← List.cons_append]
    exact List.getLast?_concat _

/-- `dict(pairs)` built left to right: a lookup yields the value of the
last pair carrying the key, else what the seed dict held. -/
theorem dictLookup_foldl : ∀ (pairs d : List (Str × Str)) (k : Str),
    dictLookup (pairs.foldl (fun d kv => dictInsert d kv.1 kv.2) d) k
      = (((pairs.filter (fun kv => kv.1 = k)).map Prod.snd).getLast?).or (dictLookup d k) := by
  intro pairs
  induction pairs with
  | nil =>
    intro d k
    simp [List.foldl, Option.or]
  | cons kv pairs ih =>
    obtain ⟨k1, v1⟩ := kv
    intro d k
    by_cases hk : k1 = k
    · subst hk
      have hlook : dictLookup (dictInsert d k1 v1) k1 = some v1 := by
        rw [dictLookup_eq_getAttr]
        exact getAttr_dictInsert_self d k1 v1
      have hfc : List.filter (fun kv => decide (kv.1 = k1)) ((k1, v1) :: pairs)
          = (k1, v1) :: List.filter (fun kv => decide (kv.1 = k1)) pairs := by
        simp [List.filter_cons]
      simp only [List.foldl_cons]
      rw [ih (dictInsert d k1 v1) k1, hlook, hfc, List.map_cons, getLast?_cons_or]
      cases hM : ((List.filter (fun kv => decide (kv.1 = k1)) pairs).map Prod.snd).getLast? with
      | none => rfl
      | some w => rfl
    · have hlook : dictLookup (dictInsert d k1 v1) k = dictLookup d k := by
        rw [dictLookup_eq_getAttr, dictLookup_eq_getAttr]
        exact getAttr_dictInsert_ne d k1 v1 k hk
      have hfc : List.filter (fun kv => decide (kv.1 = k)) ((k1, v1) :: pairs)
          = List.filter (fun kv => decide (kv.1 = k)) pairs := by
        simp [List.filter_cons, hk]
      simp only [List.foldl_cons]
      rw [ih (dictInsert d k1 v1) k, hlook, hfc]

theorem dictLookup_dictOfPairs (pairs : List (Str × Str)) (k : Str) :
    dictLookup (dictOfPairs pairs) k
      = ((pairs.filter (fun kv => kv.1 = k)).map Prod.snd).getLast? := by
  have h := dictLookup_foldl pairs [] k
  simp only [dictOfPairs]
  rw [h]
  cases ((pairs.filter (fun kv => kv.1 = k)).map Prod.snd).getLast? with
  | none => rfl
  | some w => rfl

/-! Search lemmas (`find_all`, `find`, `decompose`). -/

theorem findAllNodes_append (sel : Sel) : ∀ (xs ys : List Node),
    findAllNodes sel (xs ++ ys) = findAllNodes sel xs ++ findAllNodes sel ys := by
  intro xs ys
  induction xs with
  | nil => rfl
  | cons n ns ih =>
    simp only [List.cons_append, findAllNodes, List.append_eq, ih, List.append_assoc]

theorem mem_findAllNodes_shape (sel : Sel) : ∀ (ts : List Node) (n : Node),
    n ∈ findAllNodes sel ts →
    ∃ t attrs cs, n = Node.elem t attrs cs ∧ selMatch sel t attrs = true := by
  intro ts
  induction ts using nodeList_induction with
  | hnil => intro n h; cases h
  | hcons hd tl ihc iht =>
    intro n h
    cases hd with
    | text s =>
      simp only [findAllNodes, findAllNode, List.nil_append] at h
      exact iht n h
    | elem t attrs cs =>
      simp only [findAllNodes, findAllNode] at h
      rcases List.mem_append.mp h with h1 | h2
      · rcases List.mem_append.mp h1 with ha | hb
        · by_cases hm : selMatch sel t attrs = true
          · rw [if_pos hm] at ha
            simp only [List.mem_singleton] at ha
            exact ⟨t, attrs, cs, ha, hm⟩
          · rw [if_neg hm] at ha
            cases ha
        · exact ihc n hb
      · exact iht n h2

theorem mem_wfNodes : ∀ (ts : List Node) (n : Node),
    wfNodes ts = true → n ∈ ts → wfNode n = true := by
  intro ts n hwf hm
  exact ((wfNodes_iff ts).mp hwf).1 n hm

theorem mem_findAllNodes_wf (sel : Sel) : ∀ (ts : List Node) (n : Node),
    wfNodes ts = true → n ∈ findAllNodes sel ts → wfNode n = true := by
  intro ts
  induction ts using nodeList_induction with
  | hnil => intro n _ h; cases h
  | hcons hd tl ihc iht =>
    intro n hwf h
    have hw := wfNodes_cons hwf
    cases hd with
    | text s =>
      simp only [findAllNodes, findAllNode, List.nil_append] at h
      exact iht n hw.2.1 h
    | elem t attrs cs =>
      have hcs : wfNodes cs = true := (wfNode_elem hw.1).2.2.2
      simp only [findAllNodes, findAllNode] at h
      rcases List.mem_append.mp h with h1 | h2
      · rcases List.mem_append.mp h1 with ha | hb
        · by_cases hm : selMatch sel t attrs = true
          · rw [if_pos hm] at ha
            simp only [List.mem_singleton] at ha
            subst ha
            exact hw.1
          · rw [if_neg hm] at ha
            cases ha
        · exact ihc n hcs hb
      · exact iht n hw.2.1 h2

theorem removeAllNodes_no_match (sel : Sel) : ∀ (ts : List Node),
    findAllNodes sel ts = [] → removeAllNodes sel ts = ts := by
  intro ts
  induction ts using nodeList_induction with
  | hnil => intro _; rfl
  | hcons hd tl ihc iht =>
    intro h
    cases hd with
    | text s =>
      simp only [findAllNodes, findAllNode, List.nil_append] at h
      simp only [removeAllNodes, removeAllNode, List.singleton_append]
      rw [iht h]
    | elem t attrs cs =>
      simp only [findAllNodes, findAllNode, List.append_eq_nil] at h
      obtain ⟨⟨h1, h2⟩, h3⟩ := h
      have hm : selMatch sel t attrs = false := by
        by_contra hx
        rw [eq_true_of_ne_false hx] at h1
        simp at h1
      have hmn : ¬(selMatch sel t attrs = true) := by
        rw [hm]
        exact fun hc => by cases hc
      have hc2 : removeAllNodes sel cs = cs := ihc h2
      simp only [removeAllNodes, removeAllNode, if_neg hmn]
      rw [hc2, iht h3]
      rfl

/-! URL-scheme lemmas (`urljoin` on absolute URLs and scheme'd bases). -/

theorem mapHeadNodes_eq_map : ∀ (ts : List Node), mapHeadNodes ts = ts.map mapHeadNode := by
  intro ts
  induction ts with
  | nil => rfl
  | cons n ns ih => simp only [mapHeadNodes, List.map_cons, ih]

theorem isTextNode_mapHeadNode (n : Node) : isTextNode (mapHeadNode n) = isTextNode n := by
  cases n <;> rfl

theorem splitWs_chapter : splitWs sChapter = [sChapter] := by decide

theorem getClasses_dictInsert_chapter (attrs : List (Str × Str)) :
    getClasses (dictInsert attrs sClass sChapter) = [sChapter] := by
  show splitWs ((getAttr (dictInsert attrs sClass sChapter) (("class").data)).getD []) = [sChapter]
  rw [show (("class").data : Str) = sClass from rfl]
  rw [getAttr_dictInsert_self]
  exact splitWs_chapter

theorem hasProtectedClass_dictInsert_chapter (attrs : List (Str × Str)) :
    hasProtectedClass (dictInsert attrs sClass sChapter) = false := by
  show ((getClasses (dictInsert attrs sClass sChapter)).contains sTitle
    || (getClasses (dictInsert attrs sClass sChapter)).contains sAuthor
    || (getClasses (dictInsert attrs sClass sChapter)).contains sSubtitle) = false
  rw [getClasses_dictInsert_chapter]
  decide

theorem wfNodes_cons_of {a : Node} {bs : List Node} (ha : wfNode a = true)
    (hbs : wfNodes bs = true)
    (hseam : ∀ m, bs.head? = some m → ¬(isTextNode a = true ∧ isTextNode m = true)) :
    wfNodes (a :: bs) = true := by
  cases bs with
  | nil => exact ha
  | cons b rest =>
    show (wfNode a && !(isTextNode a && isTextNode b) && wfNodes (b :: rest)) = true
    have hs := hseam b rfl
    have hnt : (isTextNode a && isTextNode b) = false := by
      by_cases h1 : isTextNode a = true
      · by_cases h2 : isTextNode b = true
        · exact absurd ⟨h1, h2⟩ hs
        · simp [Bool.eq_false_iff.mpr h2]
      · simp [Bool.eq_false_iff.mpr h1]
    rw [ha, hnt, hbs]
    rfl

theorem mapHeadNodes_wf : ∀ (ts : List Node),
    wfNodes ts = true → wfNodes (mapHeadNodes ts) = true := by
  intro ts
  induction ts using nodeList_induction with
  | hnil => intro _; rfl
  | hcons n ns ihc iht =>
    intro hwf
    have hw := wfNodes_cons hwf
    show wfNodes (mapHeadNode n :: mapHeadNodes ns) = true
    refine wfNodes_cons_of ?_ (iht hw.2.1) ?_
    · cases n with
      | text s => exact hw.1
      | elem t attrs cs =>
        have he := wfNode_elem hw.1
        have hcs : wfNodes (mapHeadNodes cs) = true := ihc he.2.2.2
        show wfNode (Node.elem t
          (if headTags.contains t && !hasProtectedClass attrs then
            dictInsert attrs sClass sChapter else attrs) (mapHeadNodes cs)) = true
        have hcc : (mapHeadNodes cs).isEmpty = cs.isEmpty := by
          cases cs <;> rfl
        have hve : (!isVoidTag t || cs.isEmpty) = true := by
          by_cases hv : isVoidTag t = true
          · rw [he.2.2.1 hv]
            simp
          · simp [Bool.eq_false_iff.mpr hv]
        by_cases hcond : (headTags.contains t && !hasProtectedClass attrs) = true
        · rw [if_pos hcond]
          show (wfName t && (dictInsert attrs sClass sChapter).all wfAttr
            && (!isVoidTag t || (mapHeadNodes cs).isEmpty) && wfNodes (mapHeadNodes cs)) = true
          rw [he.1, dictInsert_all_wfAttr attrs sClass sChapter he.2.1 (by decide), hcc, hcs, hve]
          rfl
        · rw [if_neg hcond]
          show (wfName t && attrs.all wfAttr
            && (!isVoidTag t || (mapHeadNodes cs).isEmpty) && wfNodes (mapHeadNodes cs)) = true
          rw [he.1, he.2.1, hcc, hcs, hve]
          rfl
    · intro m hm
      rw [mapHeadNodes_eq_map, List.head?_map] at hm
      cases hns : ns.head? with
      | none => rw [hns] at hm; cases hm
      | some m0 =>
        rw [hns] at hm
        have hm2 : mapHeadNode m0 = m := by simpa using hm
        subst hm2
        have := hw.2.2 m0 hns
        rw [isTextNode_mapHeadNode, isTextNode_mapHeadNode]
        exact this

theorem mapHeadNodes_idem : ∀ (ts : List Node),
    mapHeadNodes (mapHeadNodes ts) = mapHeadNodes ts := by
  intro ts
  induction ts using nodeList_induction with
  | hnil => rfl
  | hcons n ns ihc iht =>
    show mapHeadNode (mapHeadNode n) :: mapHeadNodes (mapHeadNodes ns)
      = mapHeadNode n :: mapHeadNodes ns
    rw [iht]
    cases n with
    | text s => rfl
    | elem t attrs cs =>
      have ihcs : mapHeadNodes (mapHeadNodes cs) = mapHeadNodes cs := ihc
      have hhead : mapHeadNode (mapHeadNode (Node.elem t attrs cs))
          = mapHeadNode (Node.elem t attrs cs) := by
        by_cases hcond : (headTags.contains t && !hasProtectedClass attrs) = true
        · have hc2 := hcond
          simp only [Bool.and_eq_true] at hc2
          simp only [mapHeadNode, hcond, if_true, eq_self_iff_true,
            hasProtectedClass_dictInsert_chapter, Bool.not_false, Bool.and_true, hc2.1, hc2.2,
            Bool.and_self, dictInsert_idem, ihcs]
        · simp only [mapHeadNode, if_neg hcond, ihcs]
      rw [hhead]

/-! `convert_relative_to_absolute` per-node map: shape,
well-formedness, identity on all-absolute trees, idempotence. -/

theorem excBind_ok {α β : Type} (a : α) (f : α → Except Unit β) :
    ((Except.ok a : Except Unit α) >>= f) = f a := rfl

theorem download_and_replace_ok (oracle : Str → DL) (hor : ∀ u, oracle u ≠ DL.saveFail)
    (rd sd fn : Str) (attrs : List (Str × Str)) (an : Str) :
    download_and_replace oracle rd sd fn attrs an
      = Except.ok (download_and_replace_total oracle rd sd fn attrs an) := by
  cases hga : getAttr attrs an with
  | none => simp [download_and_replace, download_and_replace_total, hga]
  | some url =>
    by_cases hu : url = []
    · simp [download_and_replace, download_and_replace_total, hga, hu]
    · cases hol : oracle (urljoin fn url) with
      | ok content => simp [download_and_replace, download_and_replace_total, hga, hu, hol]
      | fetchFail => simp [download_and_replace, download_and_replace_total, hga, hu, hol]
      | saveFail => exact absurd hol (hor _)

theorem mirrorNodes_ok (oracle : Str → DL) (hor : ∀ u, oracle u ≠ DL.saveFail)
    (rd sd fn : Str) (sel : Sel) (an : Str) : ∀ (ts : List Node),
    mirrorNodes oracle rd sd fn sel an ts
      = Except.ok (mirrorNodesT oracle rd sd fn sel an ts) := by
  intro ts
  induction ts using nodeList_induction with
  | hnil => rfl
  | hcons n ns ihc iht =>
    have hn : mirrorNode oracle rd sd fn sel an n
        = Except.ok (mirrorNodeT oracle rd sd fn sel an n) := by
      cases n with
      | text s => rfl
      | elem t attrs cs =>
        have hcs : mirrorNodes oracle rd sd fn sel an cs
            = Except.ok (mirrorNodesT oracle rd sd fn sel an cs) := ihc
        simp only [mirrorNode, mirrorNodeT]
        by_cases hm : selMatch sel t attrs = true
        · rw [if_pos hm, if_pos hm, download_and_replace_ok oracle hor]
          rcases hdp : download_and_replace_total oracle rd sd fn attrs an with ⟨a1, w1, m1⟩
          rw [excBind_ok]
          dsimp only
          rw [hcs, excBind_ok]
        · rw [if_neg hm, if_neg hm, excBind_ok]
          dsimp only
          rw [hcs, excBind_ok]
    show mirrorNodes oracle rd sd fn sel an (n :: ns)
      = Except.ok (mirrorNodesT oracle rd sd fn sel an (n :: ns))
    simp only [mirrorNodes, mirrorNodesT]
    rw [hn, excBind_ok]
    rcases hp : mirrorNodeT oracle rd sd fn sel an n with ⟨n1, w1, m1⟩
    dsimp only
    rw [iht, excBind_ok]

theorem save_html_with_resources_ok (oracle : Str → DL) (hor : ∀ u, oracle u ≠ DL.saveFail)
    (html_string save_dir html_filename : Str) :
    save_html_with_resources oracle html_string save_dir html_filename
      = Except.ok (save_html_with_resources_total oracle html_string save_dir html_filename) := by
  simp only [save_html_with_resources, save_html_with_resources_total]
  rw [mirrorNodes_ok oracle hor, excBind_ok]
  rcases h1 : mirrorNodesT oracle
      (pathJoin save_dir (resourcesDirName html_filename)) save_dir html_filename
      { tag := some sImg } sSrc (parse html_string) with ⟨s1, w1, m1⟩
  dsimp only
  rw [mirrorNodes_ok oracle hor, excBind_ok]
  rcases h2 : mirrorNodesT oracle
      (pathJoin save_dir (resourcesDirName html_filename)) save_dir html_filename
      { tag := some sLink, relTok := some sStylesheet } sHref s1 with ⟨s2, w2, m2⟩
  dsimp only
  rw [mirrorNodes_ok oracle hor, excBind_ok]

/-! Chapter-index lemmas: the anchor fold of `extract_links_and_text`
on serialized well-formed anchors. -/

theorem getLast?_map {α β : Type} (f : α → β) : ∀ (l : List α),
    (l.map f).getLast? = (l.getLast?).map f := by
  intro l
  induction l with
  | nil => rfl
  | cons a l ih =>
    cases l with
    | nil => rfl
    | cons b l2 =>
      rw [List.map_cons, List.map_cons, List.getLast?_cons_cons, List.getLast?_cons_cons,
        ← List.map_cons]
      exact ih

theorem mem_of_getLast? {α : Type} {l : List α} {a : α} (h : l.getLast? = some a) : a ∈ l := by
  obtain ⟨l', rfl⟩ := List.getLast?_eq_some_iff.mp h
  exact List.mem_append.mpr (Or.inr (List.mem_singleton.mpr rfl))

theorem getAttr_append_none {d1 d2 : List (Str × Str)} {k : Str}
    (h1 : getAttr d1 k = none) (h2 : getAttr d2 k = none) :
    getAttr (d1 ++ d2) k = none := by
  induction d1 with
  | nil => exact h2
  | cons kv rest ih =>
    obtain ⟨k0, v0⟩ := kv
    by_cases hk : k0 = k
    · simp [getAttr, hk] at h1
    · simp only [getAttr, if_neg hk] at h1
      simp only [List.cons_append, getAttr, if_neg hk]
      exact ih h1

theorem findFirst_anchor {attrs : List (Str × Str)} {cs : List Node}
    (hh : (getAttr attrs sHref).isSome = true)
    (hwf : wfNode (Node.elem sA attrs cs) = true) :
    findFirst { tag := some sA, hasAttr := some sHref }
        (parse (serializeNode (Node.elem sA attrs cs)))
      = some (Node.elem sA attrs cs) := by
  rw [parse_serializeNode hwf]
  have hm : selMatch { tag := some sA, hasAttr := some sHref } sA attrs = true := by
    simp [selMatch, hh]
  simp [findFirst, findAllNodes, findAllNode, hm]

/-- One anchor's contribution in `extract_links_and_text`. -/
def anchorPair (n : Node) : Str × Str := (anchorHref n, getTextStrip n)

theorem links_and_text_aux : ∀ (anchors : List Node) (pre : List (Str × Str)),
    (∀ n ∈ anchors, ∃ attrs cs, n = Node.elem sA attrs cs
      ∧ (getAttr attrs sHref).isSome = true ∧ wfNode n = true) →
    (∀ n ∈ anchors, getAttr pre (anchorHref n) = none) →
    (anchors.map anchorHref).Nodup →
    List.foldl (fun links_dict tag =>
        match findFirst { tag := some sA, hasAttr := some sHref } (parse tag) with
        | some (Node.elem _ attrs children) =>
          dictInsert links_dict ((getAttr attrs sHref).getD [])
            (getTextStrip (Node.elem sA attrs children))
        | _ => links_dict) pre (anchors.map serializeNode)
      = pre ++ anchors.map anchorPair := by
  intro anchors
  induction anchors with
  | nil => intro pre _ _ _; simp
  | cons n ns ih =>
    intro pre hshape hfresh hnodup
    obtain ⟨attrs, cs, hn, hh, hwf⟩ := hshape n (List.mem_cons_self n ns)
    subst hn
    rw [List.map_cons, List.foldl_cons, findFirst_anchor hh hwf]
    dsimp only
    have hkey : anchorHref (Node.elem sA attrs cs) = (getAttr attrs sHref).getD [] := rfl
    have hfr : getAttr pre ((getAttr attrs sHref).getD []) = none := by
      rw [← hkey]
      exact hfresh _ (List.mem_cons_self _ _)
    rw [List.map_cons] at hnodup
    have hnd := List.nodup_cons.mp hnodup
    have hstep : dictInsert pre ((getAttr attrs sHref).getD [])
          (getTextStrip (Node.elem sA attrs cs))
        = pre ++ [anchorPair (Node.elem sA attrs cs)] := dictInsert_fresh pre _ _ hfr
    rw [hstep]
    rw [ih (pre ++ [anchorPair (Node.elem sA attrs cs)])
      (fun m hm => hshape m (List.mem_cons_of_mem _ hm))
      (fun m hm => getAttr_append_none (hfresh m (List.mem_cons_of_mem _ hm))
        (by
          have hne : anchorHref (Node.elem sA attrs cs) ≠ anchorHref m := by
            intro he
            exact hnd.1 (he ▸ List.mem_map_of_mem anchorHref hm)
          show getAttr [anchorPair (Node.elem sA attrs cs)] (anchorHref m) = none
          simp only [anchorPair, getAttr]
          rw [if_neg hne]))
      hnd.2]
    simp [List.append_assoc]

/-! ## The claims -/

/-- C2: the spec (following the source's own comment) says `get_prosa`
demotes each heading by one level (h2 to h1, h3 to h2, h4 to h3) before
reclassification.  The code contains no such stage: a chapter that is a
single `<h2>` heading comes out of `get_prosa` still an `<h2>`, only its
class list changed — the heading level is untouched. -/
theorem C2_no_heading_demotion :
    get_prosa (("<h2>Title</h2>").data)
      = ("<h2 class=\"chapter\">Title</h2>").data := rfl

/-- C4: `write_book` resolves author and title by the claimed two-tier
fallback: the stripped text of the first element of class
`author`/`title` in the assembled prose when one exists, else the meta
tag of the same name, else the literal `"Unknown"` (the `.getD
sUnknown` below is exactly "meta tag if present, else Unknown"). -/
theorem C4_two_tier_fallback (book : Str) (meta_tags : List (Str × Str)) :
    (∀ n, (findAllNodes { cls := some sAuthor } (parse book)).head? = some n →
        write_book_author book meta_tags = getTextStrip n)
    ∧ (findAllNodes { cls := some sAuthor } (parse book) = [] →
        write_book_author book meta_tags = (dictLookup meta_tags sAuthor).getD sUnknown)
    ∧ (∀ n, (findAllNodes { cls := some sTitle } (parse book)).head? = some n →
        write_book_title book meta_tags = getTextStrip n)
    ∧ (findAllNodes { cls := some sTitle } (parse book) = [] →
        write_book_title book meta_tags = (dictLookup meta_tags sTitle).getD sUnknown) := by
  have hea : extract_content_by_class book sAuthor
      = (findAllNodes { cls := some sAuthor } (parse book)).map getTextStrip := rfl
  have het : extract_content_by_class book sTitle
      = (findAllNodes { cls := some sTitle } (parse book)).map getTextStrip := rfl
  refine ⟨?_, ?_, ?_, ?_⟩
  · intro n hn
    cases hL : findAllNodes { cls := some sAuthor } (parse book) with
    | nil => rw [hL] at hn; cases hn
    | cons m rest =>
      rw [hL] at hn
      have hm : m = n := by simpa using hn
      subst hm
      show (match extract_content_by_class book sAuthor with
        | a :: _ => a
        | [] => (dictLookup meta_tags sAuthor).getD sUnknown) = getTextStrip m
      rw [hea, hL, List.map_cons]
  · intro hL
    show (match extract_content_by_class book sAuthor with
      | a :: _ => a
      | [] => (dictLookup meta_tags sAuthor).getD sUnknown)
        = (dictLookup meta_tags sAuthor).getD sUnknown
    rw [hea, hL, List.map_nil]
  · intro n hn
    cases hL : findAllNodes { cls := some sTitle } (parse book) with
    | nil => rw [hL] at hn; cases hn
    | cons m rest =>
      rw [hL] at hn
      have hm : m = n := by simpa using hn
      subst hm
      show (match extract_content_by_class book sTitle with
        | t :: _ => t
        | [] => (dictLookup meta_tags sTitle).getD sUnknown) = getTextStrip m
      rw [het, hL, List.map_cons]
  · intro hL
    show (match extract_content_by_class book sTitle with
      | t :: _ => t
      | [] => (dictLookup meta_tags sTitle).getD sUnknown)
        = (dictLookup meta_tags sTitle).getD sUnknown
    rw [het, hL, List.map_nil]

/-- C4 witness: an empty book and empty meta dict satisfy the
second-tier hypotheses, and both resolutions land on the meta/Unknown
fallback. -/
theorem C4_witness :
    findAllNodes { cls := some sAuthor } (parse ([] : Str)) = []
    ∧ write_book_author ([] : Str) [] = (dictLookup ([] : List (Str × Str)) sAuthor).getD sUnknown
    ∧ write_book_title ([] : Str) [] = (dictLookup ([] : List (Str × Str)) sTitle).getD sUnknown :=
  ⟨rfl, (C4_two_tier_fallback [] []).2.1 rfl, (C4_two_tier_fallback [] []).2.2.2 rfl⟩

/-- C9: `get_chapter_urls` fails (the `.pop()` `IndexError`, modelled
as `none`) exactly when the index page has no `<ul>` element at all,
and returns the empty sequence without failing when the last `<ul>`
exists but contains no anchors. -/
theorem C9_index_error_cases (url page : Str) :
    (get_chapter_urls url page = none
      ↔ findAllNodes { tag := some sUl } (parse page) = [])
    ∧ (∀ ulNode, (findAllNodes { tag := some sUl } (parse page)).getLast? = some ulNode →
        findAllNode { tag := some sA } ulNode = [] →
        get_chapter_urls url page = some []) := by
  have hsec : extract_section page sUl
      = (findAllNodes { tag := some sUl } (parse page)).map serializeNode := rfl
  constructor
  · cases hL : (findAllNodes { tag := some sUl } (parse page)).getLast? with
    | none =>
      have hnil : findAllNodes { tag := some sUl } (parse page) = [] :=
        List.getLast?_eq_none_iff.mp hL
      have : get_chapter_urls url page = none := by
        simp only [get_chapter_urls, hsec, getLast?_map, hL]
        rfl
      rw [this, hnil]
      simp
    | some ulNode =>
      have : get_chapter_urls url page
          = some ((extract_links_and_text (extract_section (serializeNode ulNode) sA)).map
              (fun kv => (normalizeBase url ++ kv.1, kv.2))) := by
        simp only [get_chapter_urls, hsec, getLast?_map, hL]
        rfl
      rw [this]
      constructor
      · intro hx
        cases hx
      · intro hx
        rw [hx] at hL
        cases hL
  · intro ulNode hul hanch
    have hwul : wfNode ulNode :=
      mem_findAllNodes_wf _ _ _ (wf_parse page) (mem_of_getLast? hul)
    have hps : parse (serializeNode ulNode) = [ulNode] := parse_serializeNode hwul
    have hempty : extract_section (serializeNode ulNode) sA = [] := by
      show (findAllNodes { tag := some sA } (parse (serializeNode ulNode))).map serializeNode = []
      rw [hps]
      show (findAllNode { tag := some sA } ulNode ++ findAllNodes { tag := some sA } []).map
        serializeNode = []
      rw [hanch]
      rfl
    simp only [get_chapter_urls, hsec, getLast?_map, hul]
    rw [show Option.map serializeNode (some ulNode) = some (serializeNode ulNode) from rfl]
    dsimp only
    rw [hempty]
    rfl

/-- C9 witness: a page whose only `<ul>` is empty — the last list
exists, has no anchors, and chapter resolution returns the empty
sequence rather than failing. -/
theorem C9_witness :
    (findAllNodes { tag := some sUl } (parse (("<ul></ul>").data))).getLast?
      = some (Node.elem sUl [] [])
    ∧ findAllNode { tag := some sA } (Node.elem sUl [] []) = []
    ∧ get_chapter_urls (("http://g.org/b/").data) (("<ul></ul>").data) = some [] :=
  ⟨rfl, rfl, (C9_index_error_cases (("http://g.org/b/").data) (("<ul></ul>").data)).2
    (Node.elem sUl [] []) rfl rfl⟩

/-- C10 (amended): the meta key is the name attribute only when that
attribute is present AND nonempty (Python's `or` also falls through on
an empty string, not only on a missing attribute); otherwise the
property attribute is used; contributions with an empty or missing key
or content are dropped; and among elements yielding the same key the
last one in document order wins. -/
theorem C10_meta_key_fallback_last_wins :
    (∀ html, extract_meta_tags html = dictOfPairs (metaContribs html))
    ∧ (∀ pairs k, dictLookup (dictOfPairs pairs) k
        = ((pairs.filter (fun kv => kv.1 = k)).map Prod.snd).getLast?)
    ∧ (∀ attrs p c, getAttr attrs sName = some [] → getAttr attrs sProperty = some p →
        getAttr attrs sContent = some c → p ≠ [] → c ≠ [] →
        metaContribution attrs = some (p, c))
    ∧ (∀ attrs nm c, getAttr attrs sName = some nm → nm ≠ [] →
        getAttr attrs sContent = some c → c ≠ [] →
        metaContribution attrs = some (nm, c)) := by
  refine ⟨?_, dictLookup_dictOfPairs, ?_, ?_⟩
  · intro html
    have aux : ∀ (ns : List Node) (d : List (Str × Str)),
        ns.foldl (fun meta_tags n =>
          match n with
          | Node.elem _ attrs _ =>
            match metaContribution attrs with
            | some kv => dictInsert meta_tags kv.1 kv.2
            | none => meta_tags
          | _ => meta_tags) d
        = (ns.filterMap (fun n => match n with
            | Node.elem _ attrs _ => metaContribution attrs
            | _ => none)).foldl (fun d kv => dictInsert d kv.1 kv.2) d := by
      intro ns
      induction ns with
      | nil => intro d; rfl
      | cons n ns ih =>
        intro d
        cases n with
        | text s =>
          rw [List.foldl_cons, List.filterMap_cons]
          exact ih d
        | elem t attrs cs =>
          rw [List.foldl_cons, List.filterMap_cons]
          cases hc : metaContribution attrs with
          | none =>
            dsimp only
            rw [hc]
            exact ih d
          | some kv =>
            dsimp only
            rw [hc]
            dsimp only
            rw [List.foldl_cons]
            exact ih (dictInsert d kv.1 kv.2)
    exact aux (findAllNodes { tag := some sMeta } (parse html)) []
  · intro attrs p c h1 h2 h3 hp hc
    simp [metaContribution, h1, h2, h3, hp, hc]
  · intro attrs nm c h1 hnm h2 hc
    simp [metaContribution, h1, h2, hnm, hc]

/-- C10 witness: a plain `<meta name=k content=v>` pair list shows the
document-order last-wins lookup, and an empty-name element with a
property key contributes under the property. -/
theorem C10_witness :
    dictLookup (dictOfPairs [((("k").data : Str), ("a").data), ((("k").data : Str), ("b").data)])
        (("k").data)
      = (((([((("k").data : Str), ("a").data), ((("k").data : Str), ("b").data)]).filter
          (fun kv => kv.1 = ("k").data)).map Prod.snd).getLast?)
    ∧ metaContribution [(sName, []), (sProperty, ("p").data), (sContent, ("c").data)]
        = some ((("p").data : Str), ("c").data) :=
  ⟨C10_meta_key_fallback_last_wins.2.1 _ _,
   C10_meta_key_fallback_last_wins.2.2.1 _ _ _ rfl rfl rfl (by decide) (by decide)⟩

/-- C10 counterexample: the claim says the property attribute is used
only when name is absent; here the name attribute is present (value
the empty string) and the element still contributes under its property
key, so the element does not "contribute nothing" either. -/
theorem C10_counterexample :
    getAttr [(sName, ([] : Str)), (sProperty, ("p").data), (sContent, ("c").data)] sName
      = some []
    ∧ extract_meta_tags (("<meta name=\"\" property=\"p\" content=\"c\"/>").data)
        = [((("p").data : Str), ("c").data)] := ⟨rfl, rfl⟩

/-- C1 (amended): when the last `<ul>` of the index page exists, every
anchor inside it carries an href, and those hrefs are pairwise
distinct, `get_chapter_urls` returns exactly the anchors in document
order (order values `0..N-1` by list position), each pairing the
normalized base concatenated with the anchor's href against its
stripped visible text.  (Without the distinctness hypothesis the
intermediate Python dict collapses duplicate hrefs — see the
counterexample.) -/
theorem C1_chapter_index_distinct_hrefs (url index_page : Str) (ulNode : Node)
    (hul : (findAllNodes { tag := some sUl } (parse index_page)).getLast? = some ulNode)
    (hhref : ∀ n ∈ findAllNode { tag := some sA } ulNode, elemHasAttr n sHref = true)
    (hnodup : ((findAllNode { tag := some sA } ulNode).map anchorHref).Nodup) :
    get_chapter_urls url index_page
      = some ((findAllNode { tag := some sA } ulNode).map
          (fun n => (normalizeBase url ++ anchorHref n, getTextStrip n))) := by
  have hwul : wfNode ulNode = true :=
    mem_findAllNodes_wf _ _ _ (wf_parse index_page) (mem_of_getLast? hul)
  have hsec : extract_section index_page sUl
      = (findAllNodes { tag := some sUl } (parse index_page)).map serializeNode := rfl
  have hps : parse (serializeNode ulNode) = [ulNode] := parse_serializeNode hwul
  have hanch : extract_section (serializeNode ulNode) sA
      = (findAllNode { tag := some sA } ulNode).map serializeNode := by
    show (findAllNodes { tag := some sA } (parse (serializeNode ulNode))).map serializeNode = _
    rw [hps]
    show (findAllNode { tag := some sA } ulNode
      ++ findAllNodes { tag := some sA } []).map serializeNode = _
    simp [findAllNodes]
  have hshape : ∀ n ∈ findAllNode { tag := some sA } ulNode,
      ∃ attrs cs, n = Node.elem sA attrs cs
        ∧ (getAttr attrs sHref).isSome = true ∧ wfNode n = true := by
    intro n hn
    have hn' : n ∈ findAllNodes { tag := some sA } [ulNode] := by
      show n ∈ findAllNode { tag := some sA } ulNode ++ findAllNodes { tag := some sA } []
      simpa [findAllNodes] using hn
    obtain ⟨t, attrs, cs, heq, hm⟩ := mem_findAllNodes_shape _ _ _ hn'
    have hwf1 : wfNode n = true :=
      mem_findAllNodes_wf _ _ _ (show wfNodes [ulNode] = true from hwul) hn'
    have ht : t = sA := by
      simpa [selMatch] using hm
    subst ht
    have hiss : (getAttr attrs sHref).isSome = true := by
      have := hhref n hn
      rw [heq] at this
      exact this
    exact ⟨attrs, cs, heq, hiss, hwf1⟩
  have hlinks : extract_links_and_text ((findAllNode { tag := some sA } ulNode).map serializeNode)
      = (findAllNode { tag := some sA } ulNode).map anchorPair := by
    have h := links_and_text_aux (findAllNode { tag := some sA } ulNode) [] hshape
      (fun n _ => rfl) hnodup
    simpa [extract_links_and_text] using h
  simp only [get_chapter_urls, hsec, getLast?_map, hul]
  rw [show Option.map serializeNode (some ulNode) = some (serializeNode ulNode) from rfl]
  dsimp only
  rw [hanch, hlinks, List.map_map]
  rfl

/-- C1 witness: two anchors with distinct hrefs in the last list come
out as exactly two entries, in order, href against visible text. -/
theorem C1_witness :
    get_chapter_urls (("http://g.org/b/").data)
        (("<ul><a href=\"c1.htm\">One</a><a href=\"c2.htm\">Two</a></ul>").data)
      = some [((("http://g.org/b/c1.htm").data : Str), ("One").data),
              ((("http://g.org/b/c2.htm").data : Str), ("Two").data)] :=
  C1_chapter_index_distinct_hrefs (("http://g.org/b/").data)
    (("<ul><a href=\"c1.htm\">One</a><a href=\"c2.htm\">Two</a></ul>").data)
    (Node.elem sUl []
      [Node.elem sA [(sHref, ("c1.htm").data)] [Node.text (("One").data)],
       Node.elem sA [(sHref, ("c2.htm").data)] [Node.text (("Two").data)]])
    rfl (by decide) (by decide)

set_option maxHeartbeats 3200000 in
/-- C1 counterexample: an index page whose last list holds two anchors
(N = 2) sharing one href yields a single chapter entry, not two — and
its text is the last anchor's, so the anchors are not each paired with
their own text. -/
theorem C1_counterexample :
    (findAllNodes { tag := some sA }
        (parse (("<ul><a href=\"c.htm\">One</a><a href=\"c.htm\">Two</a></ul>").data))).length = 2
    ∧ get_chapter_urls (("http://g.org/b/").data)
        (("<ul><a href=\"c.htm\">One</a><a href=\"c.htm\">Two</a></ul>").data)
      = some [((("http://g.org/b/c.htm").data : Str), ("Two").data)] := ⟨rfl, rfl⟩

/-- C3 (amended): only a FETCH failure is local — the tag keeps its
attribute, no file is written, the manifest omits the entry, and the
run continues (the whole mirror equals its failure-free counterpart
whenever the filesystem never fails).  A SAVE failure is an uncaught
`OSError` and aborts the whole document write — see the
counterexample. -/
theorem C3_fetch_failure_local :
    (∀ (oracle : Str → DL) (h s f : Str), (∀ u, oracle u ≠ DL.saveFail) →
      save_html_with_resources oracle h s f
        = Except.ok (save_html_with_resources_total oracle h s f))
    ∧ (∀ (oracle : Str → DL) (rd sd fn : Str) (attrs : List (Str × Str)) (an u : Str),
        getAttr attrs an = some u → u ≠ [] → oracle (urljoin fn u) = DL.fetchFail →
        download_and_replace_total oracle rd sd fn attrs an = (attrs, [], [])) := by
  constructor
  · intro oracle h s f hor
    exact save_html_with_resources_ok oracle hor h s f
  · intro oracle rd sd fn attrs an u hga hu hol
    simp [download_and_replace_total, hga, hu, hol]

/-- C3 witness: with a network that always fails to fetch and a
filesystem that never fails, the mirror still succeeds and equals the
failure-free run (which leaves every tag untouched). -/
theorem C3_witness :
    save_html_with_resources (fun _ => DL.fetchFail)
        (("<img src=\"http://x/a.png\"/>").data) (("out").data) (("p.html").data)
      = Except.ok (save_html_with_resources_total (fun _ => DL.fetchFail)
          (("<img src=\"http://x/a.png\"/>").data) (("out").data) (("p.html").data)) :=
  C3_fetch_failure_local.1 (fun _ => DL.fetchFail)
    (("<img src=\"http://x/a.png\"/>").data) (("out").data) (("p.html").data)
    (fun _ h => DL.noConfusion h)

/-- C3 counterexample: a save failure on the FIRST of two images
aborts everything — the second image is never processed and the final
document is never written (the whole call raises), contradicting
"failure of one resource never aborts the others or the overall
document write". -/
theorem C3_counterexample :
    save_html_with_resources
        (fun u => if u = ("http://x/a.png").data then DL.saveFail else DL.ok (("D").data))
        (("<img src=\"http://x/a.png\"/><img src=\"http://y/b.png\"/>").data)
        (("out").data) (("p.html").data)
      = Except.error () := rfl

/-- C5 (amended): the local filename is the basename of the URL path,
so two mirrored URLs collide on their local path exactly when those
basenames coincide; distinct basenames always map to distinct files
under the one resources directory.  (Distinct URLs with equal
basenames DO silently overwrite — see the counterexample.) -/
theorem C5_distinct_basenames_no_collision (rd u1 u2 : Str) :
    pathJoin rd (localFilename u1) = pathJoin rd (localFilename u2)
      ↔ localFilename u1 = localFilename u2 := by
  constructor
  · intro h
    have h2 : '/' :: localFilename u1 = '/' :: localFilename u2 :=
      List.append_cancel_left h
    exact List.cons.inj h2 |>.2
  · intro h
    rw [h]

/-- C5 counterexample: two distinct remote URLs with equal basenames —
the second successful download is written over the first (same local
path, different contents), exactly the silent overwrite the claim
rules out. -/
theorem C5_counterexample :
    ((("http://x/a/f.png").data : Str) ≠ ("http://y/b/f.png").data)
    ∧ localFilename (("http://x/a/f.png").data) = localFilename (("http://y/b/f.png").data)
    ∧ (save_html_with_resources_total
        (fun u => if u = ("http://x/a/f.png").data then DL.ok (("A").data)
          else DL.ok (("B").data))
        (("<img src=\"http://x/a/f.png\"/><img src=\"http://y/b/f.png\"/>").data)
        (("out").data) (("p.html").data)).2.1
      = [((("out/p_files/f.png").data : Str), ("A").data),
         ((("out/p_files/f.png").data : Str), ("B").data),
         ((("out/p.html").data : Str),
          ("<img src=\"p_files/f.png\"/><img src=\"p_files/f.png\"/>").data)] :=
  ⟨by decide, rfl, rfl⟩

/-- C6 (amended): the string-searching trim stages (leading-to-class,
rightmost-div, last-`<hr`) do return their input unchanged when their
marker is absent, and no stage ever fails; but `remove_divs_by_class`
re-serializes the parsed soup even when nothing matches, so a
marker-free fragment passes through as its serialization normal form
(then heading-normalized) rather than byte-identical — on already
canonical input the whole pipeline is exactly
`modify_headline_classes`. -/
theorem C6_noop_stages :
    (∀ h c, findFirst { cls := some c } (parse h) = none → remove_leading_to_class h c = h)
    ∧ (∀ h c, findAllNodes { tag := some sDiv, cls := some c } (parse h) = [] →
        remove_rightmost_div_by_class h c = h)
    ∧ (∀ p, rfindSubstrIdx p sLtHr = none → trim_after_last_hr p = p)
    ∧ (∀ h c, findAllNodes { tag := some sDiv, cls := some c } (parse h) = [] →
        remove_divs_by_class h c = serializeNodes (parse h))
    ∧ (∀ ts, wfNodes ts = true →
        findFirst { cls := some sAnzeigeChap } ts = none →
        findAllNodes { tag := some sDiv, cls := some sBottomnaviGb } ts = [] →
        findAllNodes { tag := some sDiv, cls := some sAnzeigePrint } ts = [] →
        rfindSubstrIdx (serializeNodes ts) sLtHr = none →
        get_prosa (serializeNodes ts) = modify_headline_classes (serializeNodes ts)) := by
  have p1 : ∀ h c, findFirst { cls := some c } (parse h) = none
      → remove_leading_to_class h c = h := by
    intro h c hf
    simp [remove_leading_to_class, hf]
  have p2 : ∀ h c, findAllNodes { tag := some sDiv, cls := some c } (parse h) = [] →
      remove_rightmost_div_by_class h c = h := by
    intro h c hf
    simp [remove_rightmost_div_by_class, hf]
  have p3 : ∀ p, rfindSubstrIdx p sLtHr = none → trim_after_last_hr p = p := by
    intro p hf
    simp [trim_after_last_hr, hf]
  have p4 : ∀ h c, findAllNodes { tag := some sDiv, cls := some c } (parse h) = [] →
      remove_divs_by_class h c = serializeNodes (parse h) := by
    intro h c hf
    show serializeNodes (removeAllNodes { tag := some sDiv, cls := some c } (parse h)) = _
    rw [removeAllNodes_no_match _ _ hf]
  refine ⟨p1, p2, p3, p4, ?_⟩
  intro ts hwf h1 h2 h3 h4
  have hps : parse (serializeNodes ts) = ts := parse_serializeNodes hwf
  have e1 : remove_leading_to_class (serializeNodes ts) sAnzeigeChap = serializeNodes ts :=
    p1 _ _ (by rw [hps]; exact h1)
  have e2 : remove_rightmost_div_by_class (serializeNodes ts) sBottomnaviGb
      = serializeNodes ts := p2 _ _ (by rw [hps]; exact h2)
  have e3 : remove_divs_by_class (serializeNodes ts) sAnzeigePrint = serializeNodes ts := by
    rw [p4 _ _ (by rw [hps]; exact h3), hps]
  have e4 : trim_after_last_hr (serializeNodes ts) = serializeNodes ts := p3 _ h4
  show modify_headline_classes (trim_after_last_hr (remove_divs_by_class
    (remove_rightmost_div_by_class (remove_leading_to_class (serializeNodes ts) sAnzeigeChap)
      sBottomnaviGb) sAnzeigePrint)) = modify_headline_classes (serializeNodes ts)
  rw [e1, e2, e3, e4]

/-- C6 witness: a plain marker-free paragraph in canonical form passes
through the whole extraction pipeline as exactly its
heading-normalized self. -/
theorem C6_witness :
    get_prosa (serializeNodes [Node.elem (("p").data) [] [Node.text (("x").data)]])
      = modify_headline_classes
          (serializeNodes [Node.elem (("p").data) [] [Node.text (("x").data)]]) :=
  C6_noop_stages.2.2.2.2 [Node.elem (("p").data) [] [Node.text (("x").data)]]
    rfl rfl rfl rfl rfl

/-- C6 counterexample: a fragment with no boundary marker at all, but
not in serialization normal form (uppercase tag, unclosed element):
the div-removal stage and the whole pipeline both change it, so
neither "returns its input unchanged" nor "passes through unchanged
except for heading-class normalization" holds literally. -/
theorem C6_counterexample :
    findFirst { cls := some sAnzeigeChap } (parse (("<B>x").data)) = none
    ∧ findAllNodes { tag := some sDiv, cls := some sAnzeigePrint } (parse (("<B>x").data)) = []
    ∧ rfindSubstrIdx (("<B>x").data) sLtHr = none
    ∧ remove_divs_by_class (("<B>x").data) sAnzeigePrint ≠ ("<B>x").data
    ∧ get_prosa (("<B>x").data) ≠ ("<B>x").data :=
  ⟨rfl, rfl, rfl, by decide, by decide⟩

/-- C8 (confirmed): heading reclassification is idempotent on every
input string, headings of levels 1-4 without a protected
(title/subtitle/author) class get their whole class list replaced by
the single class `chapter`, and protected headings keep their
attribute list untouched. -/
theorem C8_reclassify_idempotent :
    (∀ h, modify_headline_classes (modify_headline_classes h) = modify_headline_classes h)
    ∧ (∀ t attrs cs, headTags.contains t = true → hasProtectedClass attrs = false →
        getClasses (attrsOf (mapHeadNode (Node.elem t attrs cs))) = [sChapter])
    ∧ (∀ t attrs cs, hasProtectedClass attrs = true →
        attrsOf (mapHeadNode (Node.elem t attrs cs)) = attrs) := by
  refine ⟨?_, ?_, ?_⟩
  · intro h
    show serializeNodes (mapHeadNodes (parse (serializeNodes (mapHeadNodes (parse h)))))
      = serializeNodes (mapHeadNodes (parse h))
    rw [parse_serializeNodes (mapHeadNodes_wf _ (wf_parse h)), mapHeadNodes_idem]
  · intro t attrs cs hct hpr
    have hcond : (headTags.contains t && !hasProtectedClass attrs) = true := by
      rw [hct, hpr]
      rfl
    show getClasses (attrsOf (Node.elem t
      (if headTags.contains t && !hasProtectedClass attrs then
        dictInsert attrs sClass sChapter else attrs) (mapHeadNodes cs))) = [sChapter]
    rw [if_pos hcond]
    exact getClasses_dictInsert_chapter attrs
  · intro t attrs cs hpr
    have hcond : (headTags.contains t && !hasProtectedClass attrs) = false := by
      rw [hpr]
      simp
    show attrsOf (Node.elem t
      (if headTags.contains t && !hasProtectedClass attrs then
        dictInsert attrs sClass sChapter else attrs) (mapHeadNodes cs)) = attrs
    rw [hcond]
    rfl

/-- C8 witness: an unclassed `<h2>` is a level-1..4 heading without a
protected class, and reclassification leaves it with the single class
`chapter`. -/
theorem C8_witness :
    headTags.contains (("h2").data) = true
    ∧ hasProtectedClass ([] : List (Str × Str)) = false
    ∧ getClasses (attrsOf (mapHeadNode (Node.elem (("h2").data) [] []))) = [sChapter] :=
  ⟨by decide, rfl, C8_reclassify_idempotent.2.1 (("h2").data) [] [] (by decide) rfl⟩

end MakeBook
